import Mathlib

/-!
Verification of the core query/filter engine of an archetypal ECS library.

The development shallowly embeds:
* the slice algebra (`Slice`),
* change records and the two generations of prepared change-kind filters
  (`filter/change.rs` and `filter/mod.rs`),
* the prepared filter combinators `And`, `Or`, `Not` and `BooleanFilter`,
* the driving iterator `FilterIter`,
* the query bookkeeping (`prepare_tick`, `get_archetypes`, `get`),
* sequential schedule execution.

Stateful Rust values with a `&mut self` method become explicit state passing:
a prepared filter is a state type `σ` together with
`filter : σ → Slice → Slice × σ`.
-/

namespace Flax

/-- Modelled from the spec: the slice type of the missing `archetype` module.
A `Slice` is a half-open `[start, stop)` range of slots (`end` in the Rust
source; renamed because `end` is a Lean keyword). -/
structure Slice where
  start : Nat
  stop : Nat
  deriving DecidableEq, Repr

namespace Slice

/-- Modelled from the spec: `Slice::empty()` is the `[0, 0)` slice. -/
def empty : Slice := ⟨0, 0⟩

/-- Modelled from the spec: a slice is empty when it contains no slot. -/
def isEmpty (s : Slice) : Bool := s.stop ≤ s.start

/-- Modelled from the spec: number of slots in the half-open range. -/
def len (s : Slice) : Nat := s.stop - s.start

/-- Modelled from the spec: slot membership in the half-open range. -/
def contains (s : Slice) (slot : Nat) : Prop := s.start ≤ slot ∧ slot < s.stop

instance (s : Slice) (slot : Nat) : Decidable (s.contains slot) := by
  unfold contains; infer_instance

/-- Modelled from the spec: `intersect` returns the (possibly empty)
intersection of two slices, clamped so that `start ≤ stop`. -/
def intersect (a b : Slice) : Slice :=
  let lo := max a.start b.start
  ⟨lo, max (min a.stop b.stop) lo⟩

/-- Modelled from the spec: `union` is `some` iff the slices touch
(`a.stop ≥ b.start ∧ b.stop ≥ a.start`), else `none`. -/
def union (a b : Slice) : Option Slice :=
  if b.start ≤ a.stop ∧ a.start ≤ b.stop then
    some ⟨min a.start b.start, max a.stop b.stop⟩
  else
    none

/-- Modelled from the spec: `difference a b` is defined only when `b ⊆ a`
and `b` is flush with a boundary of `a`; else `none`. -/
def difference (a b : Slice) : Option Slice :=
  if b.start = a.start ∧ b.stop ≤ a.stop then some ⟨b.stop, a.stop⟩
  else if b.stop = a.stop ∧ a.start ≤ b.start then some ⟨a.start, b.start⟩
  else none

/-- Modelled from the spec: `split_with a sub` returns the three pieces
`(left, mid, right)` when `sub ⊆ a`, else `none` (the Rust caller unwraps
with an `expect`, i.e. panics, on `none`). -/
def splitWith (a sub : Slice) : Option (Slice × Slice × Slice) :=
  if a.start ≤ sub.start ∧ sub.stop ≤ a.stop ∧ sub.start ≤ sub.stop then
    some (⟨a.start, sub.start⟩, sub, ⟨sub.stop, a.stop⟩)
  else
    none

/-- `overlaps` from the source's usage: two slices overlap exactly when they
share a slot (strict overlap; the repository's own filter tests force this
reading, e.g. record `[10,20)` does not overlap input `[20,50)`). -/
def overlaps (a b : Slice) : Bool := a.start < b.stop ∧ b.start < a.stop

theorem isEmpty_iff (s : Slice) : s.isEmpty = true ↔ s.stop ≤ s.start := by
  simp [isEmpty]

theorem not_isEmpty_iff (s : Slice) : s.isEmpty = false ↔ s.start < s.stop := by
  simp [isEmpty]

theorem contains_intersect (a b : Slice) (slot : Nat) :
    (a.intersect b).contains slot ↔ a.contains slot ∧ b.contains slot := by
  simp only [intersect, contains]
  omega

/-- For a non-empty slice `a` and a non-empty range `b`, the strict
`overlaps` test coincides with sharing a slot. (For empty slices the Rust
test can return `true` spuriously, which is why well-formed change lists
must not contain empty record slices.) -/
theorem overlaps_iff (a b : Slice) (ha : a.start < a.stop) (hb : b.start < b.stop) :
    a.overlaps b = true ↔ ∃ slot, a.contains slot ∧ b.contains slot := by
  simp only [overlaps, contains, Bool.decide_and, Bool.and_eq_true, decide_eq_true_eq]
  constructor
  · rintro ⟨h1, h2⟩
    refine ⟨max a.start b.start, ⟨?_, ?_⟩, ?_, ?_⟩ <;> omega
  · rintro ⟨slot, ⟨h1, h2⟩, ⟨h3, h4⟩⟩
    exact ⟨by omega, by omega⟩

theorem intersect_isEmpty_of_right (a b : Slice) (h : b.isEmpty = true) :
    (a.intersect b).isEmpty = true := by
  simp only [isEmpty, decide_eq_true_eq] at h ⊢
  simp only [intersect]
  omega

end Slice

/-- A prepared filter: the Rust trait `PreparedFilter`'s single method
`fn filter(&mut self, slots: Slice) -> Slice`, with the receiver's mutable
state made explicit. -/
structure PFilter (σ : Type) where
  filter : σ → Slice → Slice × σ

/-- `FilterIter::next`, one step: calls the filter on the remaining slots;
an empty result ends iteration, a non-empty result is split off the
remaining range (panicking if it is not a subset). -/
inductive NextRes (σ : Type) where
  | panic : NextRes σ
  | done : Slice × σ → NextRes σ
  | yield : Slice → Slice × σ → NextRes σ
  deriving Repr

/-- One `FilterIter::next` call on state `(slots, st)`. -/
def nextIter {σ : Type} (F : PFilter σ) (s : Slice × σ) : NextRes σ :=
  let r := F.filter s.2 s.1
  if r.1.isEmpty then .done (s.1, r.2)
  else
    match s.1.splitWith r.1 with
    | none => .panic
    | some (_, m, rt) => .yield m (rt, r.2)

/-- Driving a `FilterIter` for at most `fuel` steps, collecting every
yielded slice. The boolean is `true` when the iteration panicked
(`split_with` failed). `runIter` below supplies enough fuel; the iteration
itself needs at most `slots.len` yields since a non-empty yielded subset
strictly shrinks the remainder (`runIterF_stable`). -/
def runIterF {σ : Type} (F : PFilter σ) : Nat → Slice → σ → List Slice × Bool
  | 0, _, _ => ([], false)
  | fuel + 1, slots, st =>
    if (F.filter st slots).1.isEmpty then ([], false)
    else
      if slots.start ≤ (F.filter st slots).1.start ∧
          (F.filter st slots).1.stop ≤ slots.stop then
        match runIterF F fuel ⟨(F.filter st slots).1.stop, slots.stop⟩
            (F.filter st slots).2 with
        | (ys, pb) => ((F.filter st slots).1 :: ys, pb)
      else ([], true)

/-- Driving a `FilterIter` to exhaustion. -/
def runIter {σ : Type} (F : PFilter σ) (slots : Slice) (st : σ) : List Slice × Bool :=
  runIterF F (slots.len + 1) slots st

/-- The fuelled run is stable once the fuel exceeds the length of the slot
range: `FilterIter` terminates after at most `slots.len` yields. -/
theorem runIterF_stable {σ : Type} (F : PFilter σ) :
    ∀ (fuel fuel' : Nat) (slots : Slice) (st : σ),
      slots.len < fuel → slots.len < fuel' →
      runIterF F fuel slots st = runIterF F fuel' slots st := by
  intro fuel
  induction fuel with
  | zero => intro fuel' slots st h; omega
  | succ fuel ih =>
    intro fuel' slots st h h'
    cases fuel' with
    | zero => omega
    | succ fuel' =>
      rw [runIterF, runIterF]
      by_cases h1 : (F.filter st slots).1.isEmpty = true
      · rw [if_pos h1, if_pos h1]
      · rw [if_neg h1, if_neg h1]
        by_cases h2 : slots.start ≤ (F.filter st slots).1.start ∧
            (F.filter st slots).1.stop ≤ slots.stop
        · rw [if_pos h2, if_pos h2]
          have hne := (Slice.not_isEmpty_iff (F.filter st slots).1).mp
            (Bool.not_eq_true _ ▸ h1)
          have hlen : (Slice.mk (F.filter st slots).1.stop slots.stop).len < fuel := by
            simp only [Slice.len] at h ⊢
            omega
          have hlen' : (Slice.mk (F.filter st slots).1.stop slots.stop).len < fuel' := by
            simp only [Slice.len] at h' ⊢
            omega
          rw [ih fuel' _ _ hlen hlen']
        · rw [if_neg h2, if_neg h2]

/-- Slot membership in a list of yielded slices. -/
def inYields (ys : List Slice) (slot : Nat) : Prop :=
  ∃ y ∈ ys, y.contains slot

instance (ys : List Slice) (slot : Nat) : Decidable (inYields ys slot) := by
  unfold inYields; infer_instance

/-- The yielded slices form an ascending chain inside `[lo, hi)`:
each is non-empty, starts no earlier than `lo`, ends by `hi`, and each
subsequent slice starts at or after the previous one's stop. -/
def ChainWithin : Nat → Nat → List Slice → Prop
  | _, _, [] => True
  | lo, hi, y :: ys => lo ≤ y.start ∧ y.start < y.stop ∧ y.stop ≤ hi ∧
      ChainWithin y.stop hi ys

def chainWithinDec : (lo hi : Nat) → (ys : List Slice) → Decidable (ChainWithin lo hi ys)
  | _, _, [] => .isTrue trivial
  | lo, hi, y :: ys =>
    have : Decidable (ChainWithin y.stop hi ys) := chainWithinDec _ _ _
    by unfold ChainWithin; infer_instance

instance (lo hi : Nat) (ys : List Slice) : Decidable (ChainWithin lo hi ys) :=
  chainWithinDec lo hi ys

theorem chainWithin_mono {lo lo' hi : Nat} {ys : List Slice} (h : lo' ≤ lo) :
    ChainWithin lo hi ys → ChainWithin lo' hi ys := by
  cases ys with
  | nil => intro; trivial
  | cons y ys =>
    intro ⟨h1, h2, h3, h4⟩
    exact ⟨le_trans h h1, h2, h3, h4⟩

/-- Every run of `FilterIter` yields an ascending chain within the initial
slot range (hence only non-empty, pairwise disjoint slices, in ascending
order), as long as the filter only returns sub-slices (no panic). -/
theorem runIterF_chain {σ : Type} (F : PFilter σ) :
    ∀ (fuel : Nat) (slots : Slice) (st : σ),
      ChainWithin slots.start slots.stop (runIterF F fuel slots st).1 := by
  intro fuel
  induction fuel with
  | zero => intro slots st; trivial
  | succ fuel ih =>
    intro slots st
    rw [runIterF]
    by_cases h1 : (F.filter st slots).1.isEmpty = true
    · simp [h1, ChainWithin]
    · rw [if_neg h1]
      by_cases h2 : slots.start ≤ (F.filter st slots).1.start ∧
          (F.filter st slots).1.stop ≤ slots.stop
      · rw [if_pos h2]
        have hne := (Slice.not_isEmpty_iff (F.filter st slots).1).mp
          (Bool.not_eq_true _ ▸ h1)
        have hrest := ih ⟨(F.filter st slots).1.stop, slots.stop⟩ (F.filter st slots).2
        cases hr : runIterF F fuel ⟨(F.filter st slots).1.stop, slots.stop⟩
            (F.filter st slots).2 with
        | mk ys pb =>
          rw [hr] at hrest
          exact ⟨h2.1, hne, h2.2, hrest⟩
      · rw [if_neg h2]
        trivial

theorem runIter_chain {σ : Type} (F : PFilter σ) (slots : Slice) (st : σ) :
    ChainWithin slots.start slots.stop (runIter F slots st).1 :=
  runIterF_chain F _ slots st

/-- In an ascending chain, each slot is contained in at most one slice. -/
theorem chainWithin_at_most_once {lo hi : Nat} :
    ∀ {ys : List Slice}, ChainWithin lo hi ys →
      ∀ slot, (ys.countP (fun y => decide (y.contains slot))) ≤ 1 := by
  intro ys
  induction ys generalizing lo with
  | nil => intro _ slot; simp
  | cons y ys ih =>
    intro ⟨h1, h2, h3, h4⟩ slot
    rw [List.countP_cons]
    by_cases hc : y.contains slot
    · have hnone : ∀ z ∈ ys, ¬ z.contains slot := by
        clear ih
        have haux : ∀ (zs : List Slice) (lo' : Nat), slot < lo' →
            ChainWithin lo' hi zs → ∀ z ∈ zs, ¬ z.contains slot := by
          intro zs
          induction zs with
          | nil => intro _ _ _ z hz; cases hz
          | cons z zs ihz =>
            intro lo' hlt hch w hw
            obtain ⟨g1, g2, g3, g4⟩ := hch
            cases hw with
            | head => intro hcon; obtain ⟨c1, _⟩ := hcon; omega
            | tail _ hw' => exact ihz _ (by omega) g4 w hw'
        exact haux ys y.stop hc.2 h4
      have hz : ys.countP (fun y => decide (y.contains slot)) = 0 := by
        rw [List.countP_eq_zero]
        intro z hz
        simpa using hnone z hz
      simp [hz, hc]
    · have hih := ih (chainWithin_mono (le_refl y.stop) h4) slot
      have hd : decide (y.contains slot) = false := by simpa using hc
      simp only [hd]
      simpa using hih

/-! ## Change records and the prepared change-kind filters -/

/-- `ChangeKind` from the source (`archetype` module, used by both filter
generations). -/
inductive ChangeKind where
  | modified
  | inserted
  | removed
  deriving DecidableEq, Repr

/-- `Change` of `src/filter/change.rs`: a `(slice, tick)` record. The change
list handed to `PreparedKindFilter` there is already keyed by kind
(`changes.get(self.kind)`), so records carry no kind field. -/
structure Change where
  slice : Slice
  tick : Nat
  deriving DecidableEq, Repr

/-- `Change` of the `src/filter/mod.rs` generation: records carry their kind
(`Change::modified`, `Change::inserted`, ...). -/
structure ChangeM where
  slice : Slice
  tick : Nat
  kind : ChangeKind
  deriving DecidableEq, Repr

/-- State of `PreparedKindFilter` in `src/filter/change.rs`. -/
structure KFState where
  changes : List Change
  cur : Option Slice
  cursor : Nat
  old_tick : Nat
  deriving Repr

/-- `self.changes[self.cursor..].iter().filter(|v| v.tick > old).find_position(|c| c.slice.overlaps(slots))`:
first record (by list position) whose tick is newer than `old` and whose
slice overlaps `slots`; the returned index counts positions within the
tick-filtered iterator, exactly as itertools' `find_position` does. -/
def findFiltered (old : Nat) (slots : Slice) : List Change → Option (Nat × Change)
  | [] => none
  | c :: rest =>
    if old < c.tick then
      if c.slice.overlaps slots then some (0, c)
      else
        match findFiltered old slots rest with
        | some (i, x) => some (i + 1, x)
        | none => none
    else findFiltered old slots rest

/-- The scanning part of `PreparedKindFilter::find_slice`: a forward scan
from the cursor (caching the found record and storing the relative filtered
index as the new cursor), then a wraparound scan over the records before the
cursor (which updates no state). -/
def kfScan (st : KFState) (slots : Slice) : Option Slice × KFState :=
  match findFiltered st.old_tick slots (st.changes.drop st.cursor) with
  | some (idx, ch) =>
    (some ch.slice, { st with cur := some ch.slice, cursor := idx })
  | none =>
    match findFiltered st.old_tick slots (st.changes.take st.cursor) with
    | some (_, ch) => (some ch.slice, st)
    | none => (none, st)

/-- `PreparedKindFilter::find_slice` (`src/filter/change.rs:124`): the cached
current record short-circuits when it overlaps the input; otherwise scan. -/
def findSlice (st : KFState) (slots : Slice) : Option Slice × KFState :=
  match st.cur with
  | some c => if c.overlaps slots then (some c, st) else kfScan st slots
  | none => kfScan st slots

/-- `PreparedKindFilter::filter_slots` (`src/filter/change.rs:170`): the
found record's slice intersected with the input, or empty. -/
def kfFilter : PFilter KFState where
  filter := fun st slots =>
    match findSlice st slots with
    | (none, st') => (Slice.empty, st')
    | (some c, st') => (c.intersect slots, st')

/-- A freshly prepared change-kind filter (`PreparedKindFilter::new`). -/
def KFState.init (changes : List Change) (old_tick : Nat) : KFState :=
  ⟨changes, none, 0, old_tick⟩

/-- State of `PreparedKindFilter` in `src/filter/mod.rs` (the generation
whose records carry their kind and whose scan has no overlap test). -/
structure KMState where
  changes : List ChangeM
  cur : Option Slice
  index : Nat
  tick : Nat
  kind : ChangeKind
  deriving Repr

/-- The combined loop of `current_slice` and `filter`
(`src/filter/mod.rs:359` and `:380`) over the records from the index on:
each record is read (consuming it), skipped unless `tick > self.tick` and
the kind matches; a matching record whose slice has empty intersection with
the input is dropped again (`self.cur = None`) and scanning continues; the
first matching record with non-empty intersection is cached and the
intersection returned. Returns `(result, new cur, records consumed)`. -/
def kmScanList (tick : Nat) (kind : ChangeKind) (slots : Slice) :
    List ChangeM → Slice × Option Slice × Nat
  | [] => (Slice.empty, none, 0)
  | c :: rest =>
    if tick < c.tick ∧ kind = c.kind then
      if (c.slice.intersect slots).isEmpty then
        match kmScanList tick kind slots rest with
        | (r, cur, n) => (r, cur, n + 1)
      else
        (c.slice.intersect slots, some c.slice, 1)
    else
      match kmScanList tick kind slots rest with
      | (r, cur, n) => (r, cur, n + 1)

/-- `PreparedKindFilter::filter` of `src/filter/mod.rs:380`: use the cached
current record if its intersection with the input is non-empty; otherwise
drop it and scan forward. -/
def kmFilter (slots : Slice) (st : KMState) : Slice × KMState :=
  match st.cur with
  | some c =>
    if (c.intersect slots).isEmpty then
      match kmScanList st.tick st.kind slots (st.changes.drop st.index) with
      | (r, cur, n) => (r, { st with cur := cur, index := st.index + n })
    else
      (c.intersect slots, st)
  | none =>
    match kmScanList st.tick st.kind slots (st.changes.drop st.index) with
    | (r, cur, n) => (r, { st with cur := cur, index := st.index + n })

/-- The `mod.rs` kind filter as a prepared filter. -/
def kmPFilter : PFilter KMState where
  filter := fun st slots => kmFilter slots st

/-- A freshly prepared `mod.rs` kind filter (`PreparedKindFilter::new`). -/
def KMState.init (changes : List ChangeM) (tick : Nat) (kind : ChangeKind) : KMState :=
  ⟨changes, none, 0, tick, kind⟩

/-! Sanity checks: the repository's own unit tests, replayed against the
embedding (`filter_slices`, `filter_slices_consume`, `filter_slices_partial`
of `src/filter/change.rs` and `filter` of `src/filter/mod.rs`). -/

def sampleChanges : List Change :=
  [⟨⟨10, 20⟩, 3⟩, ⟨⟨20, 22⟩, 4⟩, ⟨⟨30, 80⟩, 3⟩, ⟨⟨100, 200⟩, 4⟩]

example :
    (kfFilter.filter (KFState.init sampleChanges 2) ⟨0, 10⟩).1.isEmpty = true := by
  decide

example :
    ((kfFilter.filter (KFState.init sampleChanges 2) ⟨0, 50⟩).1 = ⟨10, 20⟩) := by
  decide

example :
    (runIter kfFilter ⟨0, 500⟩ (KFState.init sampleChanges 2)).1 =
      [⟨10, 20⟩, ⟨20, 22⟩, ⟨30, 80⟩, ⟨100, 200⟩] := by
  decide

example :
    (runIter kfFilter ⟨25, 150⟩ (KFState.init sampleChanges 2)).1 =
      [⟨30, 80⟩, ⟨100, 150⟩] := by
  decide

def sampleChangesM : List ChangeM :=
  [⟨⟨39, 60⟩, 6, .modified⟩, ⟨⟨40, 200⟩, 1, .modified⟩, ⟨⟨70, 349⟩, 2, .modified⟩,
   ⟨⟨560, 893⟩, 5, .modified⟩, ⟨⟨784, 800⟩, 7, .inserted⟩, ⟨⟨945, 1139⟩, 8, .modified⟩]

example :
    (runIter kmPFilter ⟨0, 1238⟩ (KMState.init sampleChangesM 2 .modified)).1 =
      [⟨39, 60⟩, ⟨560, 893⟩, ⟨945, 1139⟩] := by
  decide

/-! ## Prepared filter combinators (`src/filter/mod.rs`) -/

/-- `BooleanFilter` (`src/filter/mod.rs:712`): the prepared form of the
static filters `All`, `Nothing`, `With`, `Without`. -/
def booleanFilter (b : Bool) : PFilter Unit where
  filter := fun st slots => (if b then slots else Slice.empty, st)

/-- `PreparedAnd::filter` (`src/filter/mod.rs:528`): intersect the two child
results; on an empty intersection retry once from the larger of the two
start positions clamped to `slots.end`. -/
def pAnd {σ₁ σ₂ : Type} (L : PFilter σ₁) (R : PFilter σ₂) : PFilter (σ₁ × σ₂) where
  filter := fun st slots =>
    match L.filter st.1 slots with
    | (l, s₁) =>
      match R.filter st.2 slots with
      | (r, s₂) =>
        if (l.intersect r).isEmpty then
          match L.filter s₁ ⟨min (max l.start r.start) slots.stop, slots.stop⟩ with
          | (l', s₁') =>
            match R.filter s₂ ⟨min (max l.start r.start) slots.stop, slots.stop⟩ with
            | (r', s₂') => (l'.intersect r', (s₁', s₂'))
        else
          (l.intersect r, (s₁, s₂))

/-- `PreparedOr::filter` (`src/filter/mod.rs:416`): the union of the two
child results when they touch; otherwise the left result alone (the right
one is retained by the right child's own cursor state). -/
def pOr {σ₁ σ₂ : Type} (L : PFilter σ₁) (R : PFilter σ₂) : PFilter (σ₁ × σ₂) where
  filter := fun st slots =>
    match L.filter st.1 slots with
    | (l, s₁) =>
      match R.filter st.2 slots with
      | (r, s₂) =>
        match l.union r with
        | some u => (u, (s₁, s₂))
        | none => (l, (s₁, s₂))

/-- `PreparedNot::filter` (`src/filter/mod.rs:504`):
`slots.difference(child result).unwrap()`. The Rust code panics when the
difference is undefined; the model returns the empty slice on that path,
which no theorem below exercises (their hypotheses keep `difference`
defined). -/
def pNot {σ : Type} (T : PFilter σ) : PFilter σ where
  filter := fun st slots =>
    match T.filter st slots with
    | (a, st') => ((slots.difference a).getD Slice.empty, st')

/-! Sanity check: the `combinators` unit test of `src/filter/mod.rs` (after
`Changes::set` coalescing, its two change lists are as below; the chunk
lists flatten to the brute-force union and intersection the test asserts). -/

def combChanges1 : List ChangeM :=
  [⟨⟨40, 65⟩, 2, .modified⟩, ⟨⟨59, 80⟩, 3, .modified⟩, ⟨⟨90, 234⟩, 3, .modified⟩]

def combChanges2 : List ChangeM :=
  [⟨⟨50, 70⟩, 3, .modified⟩, ⟨⟨99, 210⟩, 4, .modified⟩]

example :
    (runIter (pOr kmPFilter kmPFilter) ⟨0, 1000⟩
      (KMState.init combChanges1 1 .modified, KMState.init combChanges2 2 .modified)).1 =
      [⟨40, 70⟩, ⟨70, 80⟩, ⟨90, 234⟩] := by
  decide

example :
    (runIter (pAnd kmPFilter kmPFilter) ⟨0, 1000⟩
      (KMState.init combChanges1 1 .modified, KMState.init combChanges2 2 .modified)).1 =
      [⟨50, 65⟩, ⟨65, 70⟩, ⟨99, 210⟩] := by
  decide

/-! ## Change-list maintenance and the mutation/run round trip -/

/-- Insertion into a change list sorted by ascending slice start. -/
def insertByStart (c : Change) : List Change → List Change
  | [] => [c]
  | d :: rest =>
    if c.slice.start < d.slice.start then c :: d :: rest
    else d :: insertByStart c rest

/-- Modelled from the spec: `ChangeList::set` of the missing `archetype`
module — coalesce the new record with the last entry when the ticks match
and the slices touch, otherwise insert keeping the list sorted by ascending
slice start (the ordering the repository's filter tests exhibit). -/
def setChange (l : List Change) (c : Change) : List Change :=
  match l.getLast? with
  | none => [c]
  | some last =>
    match last.slice.union c.slice with
    | some u =>
      if last.tick = c.tick then l.dropLast ++ [⟨u, c.tick⟩]
      else insertByStart c l
    | none => insertByStart c l

/-- The per-component world fragment the change filters observe: the
component's `modified` change list and the global change tick. -/
structure CWorld where
  modified : List Change
  tick : Nat
  deriving Repr

/-- Modelled from the spec: a component write (`World::set` and the
archetype's change emission, missing from `src/`) advances the global tick
and records a `modified` record for the written slots at the new tick, so
that records written after a query run are strictly newer than the tick
that run observed. -/
def writeComponent (w : CWorld) (s : Slice) : CWorld :=
  ⟨setChange w.modified ⟨s, w.tick + 1⟩, w.tick + 1⟩

/-- A batch of component writes, applied in order. -/
def applyWrites (g : List Slice) (w : CWorld) : CWorld :=
  g.foldl writeComponent w

/-- Change lists are kept sorted by ascending slice start. -/
def SortedByStart (l : List Change) : Prop :=
  l.Pairwise (fun a b => a.slice.start ≤ b.slice.start)

/-- Well-formedness of the per-component world fragment: the change list is
sorted by start, every record is no newer than the global tick, and no
record has an empty slice. -/
def CWorld.WF (w : CWorld) : Prop :=
  SortedByStart w.modified ∧ (∀ c ∈ w.modified, c.tick ≤ w.tick) ∧
    (∀ c ∈ w.modified, c.slice.start < c.slice.stop)

/-- A slot has a matching change record newer than `old`. -/
def changedAt (changes : List Change) (old slot : Nat) : Prop :=
  ∃ c ∈ changes, old < c.tick ∧ c.slice.contains slot

instance (changes : List Change) (old slot : Nat) : Decidable (changedAt changes old slot) := by
  unfold changedAt; infer_instance

instance (l : List Change) : Decidable (SortedByStart l) := by
  unfold SortedByStart
  infer_instance

/-! ## Query bookkeeping (`src/query/mod.rs`) -/

/-- The cache-relevant state of `Query` (`src/query/mod.rs:22`): the cached
archetype ids, the last-seen change tick and the archetype-generation
snapshot. -/
structure QueryState where
  archetypes : List Nat
  change_tick : Nat
  archetype_gen : Nat
  deriving DecidableEq, Repr

/-- The world fragment `get_archetypes` consults: the archetypes (as
`(id, archetype)` pairs) and the archetype-generation counter. -/
structure ArchWorld (α : Type) where
  archetypes : List (Nat × α)
  archetype_gen : Nat

/-- `Query::get_archetypes` (`src/query/mod.rs:138`): when the world's
generation counter exceeds the snapshot, clear the cache and refill it with
the ids of the archetypes the fetch matches. -/
def getArchetypes {α : Type} (fetchMatches : α → Bool) (q : QueryState)
    (w : ArchWorld α) : QueryState :=
  if q.archetype_gen < w.archetype_gen then
    { q with archetypes := (w.archetypes.filter (fun a => fetchMatches a.2)).map Prod.fst }
  else q

/-- The global change tick of the world. -/
structure TickWorld where
  change_tick : Nat
  deriving DecidableEq, Repr

/-- Modelled from the spec: `World::advance_change_tick` (missing from
`src/`) atomically increments the global change tick and returns the
advanced value; `World::change_tick` reads it without advancing. -/
def advanceChangeTick (w : TickWorld) : Nat × TickWorld :=
  (w.change_tick + 1, ⟨w.change_tick + 1⟩)

/-- `Query::prepare_tick` (`src/query/mod.rs:69`): the old tick is the tick
of the query's previous run; a mutable query advances the world tick, a
read-only one just reads it; the query stores the observed tick. Returns
`((old_tick, new_tick), query afterwards, world afterwards)`. -/
def prepareTick (isMutable : Bool) (q : QueryState) (w : TickWorld) :
    (Nat × Nat) × QueryState × TickWorld :=
  match (if isMutable then advanceChangeTick w else (w.change_tick, w)) with
  | (newTick, w') => ((q.change_tick, newTick), { q with change_tick := newTick }, w')

/-- The slice `Query::get` passes to `set_visited`
(`src/query/mod.rs:125`): `Slice::new(slot, slot)`. -/
def getVisitedSlice (slot : Nat) : Slice := ⟨slot, slot⟩

/-- Modelled from the spec: a mutable prepared fetch's
`set_visited(slice, tick)` writes a `modified` record with the visited
slice at the given tick into the component's change list. -/
def setVisited (changes : List Change) (s : Slice) (tick : Nat) : List Change :=
  setChange changes ⟨s, tick⟩

/-- The change-list effect of `Query::get` on a mutable fetch: the record
written by its `set_visited` call. -/
def queryGetVisit (changes : List Change) (slot : Nat) (newTick : Nat) : List Change :=
  setVisited changes (getVisitedSlice slot) newTick

/-! ## Sequential schedule execution (`src/schedule/mod.rs`) -/

/-- A boxed system as the schedule sees it: a name and an execution
function transforming the world state or failing. -/
structure SysModel (α ε : Type) where
  name : String
  run : α → Except ε α

/-- `Schedule::execute_seq` (`src/schedule/mod.rs:24`) combined with
`FunctionSystem::execute` (`src/system/into/function.rs:66`):
`try_for_each` runs the systems in order, stopping at the first error;
`execute` attaches the failing system's name to the surfaced error. Returns
the names of the systems that were executed, in execution order, and
`some (name, error)` for the aborting system if any. -/
def executeSeq {α ε : Type} : List (SysModel α ε) → α → List String × Option (String × ε)
  | [], _ => ([], none)
  | s :: rest, w =>
    match s.run w with
    | .error e => ([s.name], some (s.name, e))
    | .ok w' =>
      match executeSeq rest w' with
      | (tr, res) => (s.name :: tr, res)

/-! ## Characterisation of the scans -/

theorem memOfGetElem {α : Type} {l : List α} {k : Nat} {a : α}
    (h : l[k]? = some a) : a ∈ l := by
  obtain ⟨hk, he⟩ := List.getElem?_eq_some_iff.mp h
  exact he ▸ List.getElem_mem hk

theorem findFiltered_none_iff (old : Nat) (slots : Slice) (l : List Change) :
    findFiltered old slots l = none ↔
      ∀ c ∈ l, old < c.tick → c.slice.overlaps slots = false := by
  induction l with
  | nil => simp [findFiltered]
  | cons c rest ih =>
    rw [findFiltered]
    by_cases h1 : old < c.tick
    · rw [if_pos h1]
      by_cases h2 : c.slice.overlaps slots = true
      · rw [if_pos h2]
        simp only [List.mem_cons]
        constructor
        · intro h; cases h
        · intro h
          have := h c (Or.inl rfl) h1
          rw [h2] at this
          cases this
      · rw [if_neg h2]
        cases hf : findFiltered old slots rest with
        | none =>
          simp only [List.mem_cons]
          constructor
          · intro _ d hd hdt
            cases hd with
            | inl he => subst he; simpa using h2
            | inr hm => exact (ih.mp hf) d hm hdt
          · intro _; trivial
        | some p =>
          simp only [List.mem_cons]
          constructor
          · intro h; cases h
          · intro hforall
            have : findFiltered old slots rest = none := by
              rw [ih]
              intro d hd hdt
              exact hforall d (Or.inr hd) hdt
            rw [this] at hf
            cases hf
    · rw [if_neg h1]
      rw [ih]
      simp only [List.mem_cons]
      constructor
      · intro h d hd hdt
        cases hd with
        | inl he => subst he; omega
        | inr hm => exact h d hm hdt
      · intro h d hd hdt
        exact h d (Or.inr hd) hdt

theorem findFiltered_some_spec (old : Nat) (slots : Slice) :
    ∀ (l : List Change) (idx : Nat) (ch : Change),
      findFiltered old slots l = some (idx, ch) →
      ∃ k, l[k]? = some ch ∧ idx ≤ k ∧ old < ch.tick ∧
        ch.slice.overlaps slots = true ∧
        ∀ i, i < k → ∀ c, l[i]? = some c → old < c.tick →
          c.slice.overlaps slots = false := by
  intro l
  induction l with
  | nil => intro idx ch h; simp [findFiltered] at h
  | cons c rest ih =>
    intro idx ch h
    rw [findFiltered] at h
    by_cases h1 : old < c.tick
    · rw [if_pos h1] at h
      by_cases h2 : c.slice.overlaps slots = true
      · rw [if_pos h2] at h
        have hi : idx = 0 ∧ ch = c := by
          simp only [Option.some.injEq, Prod.mk.injEq] at h
          exact ⟨h.1.symm, h.2.symm⟩
        obtain ⟨rfl, rfl⟩ := hi
        exact ⟨0, by simp, le_refl 0, h1, h2, fun i hi => by omega⟩
      · rw [if_neg h2] at h
        cases hf : findFiltered old slots rest with
        | none => rw [hf] at h; cases h
        | some p =>
          obtain ⟨idx', ch'⟩ := p
          rw [hf] at h
          have hi : idx = idx' + 1 ∧ ch = ch' := by
            simp only [Option.some.injEq, Prod.mk.injEq] at h
            exact ⟨h.1.symm, h.2.symm⟩
          obtain ⟨rfl, rfl⟩ := hi
          obtain ⟨k, hk1, hk2, hk3, hk4, hk5⟩ := ih idx' ch hf
          refine ⟨k + 1, by simpa using hk1, by omega, hk3, hk4, ?_⟩
          intro i hik d hd hdt
          cases i with
          | zero =>
            simp only [List.getElem?_cons_zero, Option.some.injEq] at hd
            subst hd
            simpa using h2
          | succ i =>
            simp only [List.getElem?_cons_succ] at hd
            exact hk5 i (by omega) d hd hdt
    · rw [if_neg h1] at h
      obtain ⟨k, hk1, hk2, hk3, hk4, hk5⟩ := ih idx ch h
      refine ⟨k + 1, by simpa using hk1, by omega, hk3, hk4, ?_⟩
      intro i hik d hd hdt
      cases i with
      | zero =>
        simp only [List.getElem?_cons_zero, Option.some.injEq] at hd
        subst hd
        omega
      | succ i =>
        simp only [List.getElem?_cons_succ] at hd
        exact hk5 i (by omega) d hd hdt

/-- Lightweight consequence: a found record is a member with a newer tick
and overlapping the input. -/
theorem findFiltered_some_mem (old : Nat) (slots : Slice) (l : List Change)
    (idx : Nat) (ch : Change) (h : findFiltered old slots l = some (idx, ch)) :
    ch ∈ l ∧ old < ch.tick ∧ ch.slice.overlaps slots = true := by
  obtain ⟨k, hk1, _, hk3, hk4, _⟩ := findFiltered_some_spec old slots l idx ch h
  exact ⟨memOfGetElem hk1, hk3, hk4⟩

/-- A generic soundness principle for a driven `FilterIter`: if each filter
call, from a state satisfying an invariant, only returns slots satisfying
`P` and preserves the invariant, then every yielded slot satisfies `P`. -/
theorem runIterF_sound {σ : Type} (F : PFilter σ) (I : σ → Prop) (P : Nat → Prop)
    (hstep : ∀ st slots, I st →
      (∀ slot, (F.filter st slots).1.contains slot → P slot) ∧ I (F.filter st slots).2) :
    ∀ (fuel : Nat) (slots : Slice) (st : σ), I st →
      ∀ slot, inYields (runIterF F fuel slots st).1 slot → P slot := by
  intro fuel
  induction fuel with
  | zero =>
    intro slots st _ slot hy
    rw [runIterF] at hy
    obtain ⟨y, hy1, _⟩ := hy
    cases hy1
  | succ fuel ih =>
    intro slots st hI slot hy
    rw [runIterF] at hy
    by_cases h1 : (F.filter st slots).1.isEmpty = true
    · rw [if_pos h1] at hy
      obtain ⟨y, hy1, _⟩ := hy
      cases hy1
    · rw [if_neg h1] at hy
      by_cases h2 : slots.start ≤ (F.filter st slots).1.start ∧
          (F.filter st slots).1.stop ≤ slots.stop
      · rw [if_pos h2] at hy
        cases hr : runIterF F fuel ⟨(F.filter st slots).1.stop, slots.stop⟩
            (F.filter st slots).2 with
        | mk ys pb =>
          rw [hr] at hy
          obtain ⟨y, hy1, hy2⟩ := hy
          cases hy1 with
          | head => exact (hstep st slots hI).1 slot hy2
          | tail _ hmem =>
            have := ih ⟨(F.filter st slots).1.stop, slots.stop⟩ (F.filter st slots).2
              (hstep st slots hI).2 slot
            rw [hr] at this
            exact this ⟨y, hmem, hy2⟩
      · rw [if_neg h2] at hy
        obtain ⟨y, hy1, _⟩ := hy
        cases hy1

/-- The state invariant of the `change.rs` kind filter: a cached current
slice always is the slice of some record newer than `old_tick`. -/
def KFInv (st : KFState) : Prop :=
  ∀ s, st.cur = some s → ∃ c ∈ st.changes, st.old_tick < c.tick ∧ c.slice = s

/-- One `filter_slots` call of the `change.rs` kind filter only returns
slots covered by a record newer than `old_tick`, and preserves the
invariant, the record list and the old tick. -/
theorem kfScan_spec (st : KFState) (slots : Slice) (hI : KFInv st) :
    (∀ s, (kfScan st slots).1 = some s →
      ∃ c ∈ st.changes, st.old_tick < c.tick ∧ c.slice = s) ∧
    KFInv (kfScan st slots).2 ∧ (kfScan st slots).2.changes = st.changes ∧
    (kfScan st slots).2.old_tick = st.old_tick := by
  cases hf : findFiltered st.old_tick slots (st.changes.drop st.cursor) with
  | some p =>
    obtain ⟨idx, ch⟩ := p
    obtain ⟨hm, ht, _⟩ := findFiltered_some_mem _ _ _ _ _ hf
    have hmem : ch ∈ st.changes := List.mem_of_mem_drop hm
    simp only [kfScan, hf]
    refine ⟨?_, ?_, ?_, ?_⟩
    · intro s hs
      simp only [Option.some.injEq] at hs
      exact ⟨ch, hmem, ht, hs⟩
    · intro s hs
      simp only [Option.some.injEq] at hs
      exact ⟨ch, hmem, ht, hs⟩
    · trivial
    · trivial
  | none =>
    cases hg : findFiltered st.old_tick slots (st.changes.take st.cursor) with
    | some p =>
      obtain ⟨idx, ch⟩ := p
      obtain ⟨hm, ht, _⟩ := findFiltered_some_mem _ _ _ _ _ hg
      have hmem : ch ∈ st.changes := List.mem_of_mem_take hm
      simp only [kfScan, hf, hg]
      refine ⟨?_, ?_, ?_, ?_⟩
      · intro s hs
        simp only [Option.some.injEq] at hs
        exact ⟨ch, hmem, ht, hs⟩
      · exact hI
      · trivial
      · trivial
    | none =>
      simp only [kfScan, hf, hg]
      refine ⟨?_, ?_, ?_, ?_⟩
      · intro s hs
        cases hs
      · exact hI
      · trivial
      · trivial

theorem kfFilter_step_sound (st : KFState) (slots : Slice) (hI : KFInv st) :
    (∀ slot, (kfFilter.filter st slots).1.contains slot →
      (∃ c ∈ st.changes, st.old_tick < c.tick ∧ c.slice.contains slot) ∧
        slots.contains slot) ∧
    KFInv (kfFilter.filter st slots).2 ∧
    (kfFilter.filter st slots).2.changes = st.changes ∧
    (kfFilter.filter st slots).2.old_tick = st.old_tick := by
  have main :
      (∀ s, (findSlice st slots).1 = some s →
        ∃ c ∈ st.changes, st.old_tick < c.tick ∧ c.slice = s) ∧
      KFInv (findSlice st slots).2 ∧ (findSlice st slots).2.changes = st.changes ∧
      (findSlice st slots).2.old_tick = st.old_tick := by
    have hscan := kfScan_spec st slots hI
    cases hc : st.cur with
    | some c =>
      by_cases ho : c.overlaps slots = true
      · simp only [findSlice, hc, ho, if_true]
        refine ⟨?_, ?_, ?_, ?_⟩
        · intro s hs
          simp only [Option.some.injEq] at hs
          exact hs ▸ hI c hc
        · exact hI
        · trivial
        · trivial
      · simp only [findSlice, hc, ho]
        simpa using hscan
    | none =>
      simp only [findSlice, hc]
      exact hscan
  obtain ⟨hres, hI', hch, hot⟩ := main
  cases h : (findSlice st slots).1 with
  | none =>
    have hfe : kfFilter.filter st slots = (Slice.empty, (findSlice st slots).2) := by
      show (match findSlice st slots with
            | (none, st') => (Slice.empty, st')
            | (some c, st') => (c.intersect slots, st')) = _
      cases hfs : findSlice st slots with
      | mk r s2 =>
        rw [hfs] at h
        simp only at h
        subst h
        rfl
    rw [hfe]
    refine ⟨?_, hI', hch, hot⟩
    intro slot hs
    obtain ⟨h1, h2⟩ := hs
    simp only [Slice.empty] at h1 h2
    omega
  | some c =>
    have hfe : kfFilter.filter st slots = (c.intersect slots, (findSlice st slots).2) := by
      show (match findSlice st slots with
            | (none, st') => (Slice.empty, st')
            | (some c, st') => (c.intersect slots, st')) = _
      cases hfs : findSlice st slots with
      | mk r s2 =>
        rw [hfs] at h
        simp only at h
        subst h
        rfl
    rw [hfe]
    obtain ⟨d, hd, hdt, hds⟩ := hres c h
    refine ⟨?_, hI', hch, hot⟩
    intro slot hs
    rw [Slice.contains_intersect] at hs
    exact ⟨⟨d, hd, hdt, hds ▸ hs.1⟩, hs.2⟩

/-! ## The partition property of a driven change filter -/

theorem sortedByStart_le {changes : List Change} (hsort : SortedByStart changes)
    {i j : Nat} {a b : Change} (hij : i < j)
    (ha : changes[i]? = some a) (hb : changes[j]? = some b) :
    a.slice.start ≤ b.slice.start := by
  rw [SortedByStart, List.pairwise_iff_getElem] at hsort
  obtain ⟨hi', hie⟩ := List.getElem?_eq_some_iff.mp ha
  obtain ⟨hj', hje⟩ := List.getElem?_eq_some_iff.mp hb
  subst hie hje
  exact hsort i j hi' hj' hij

/-- The invariant maintained while `FilterIter` drives a `change.rs` kind
filter: every record strictly before the cursor that is newer than
`old_tick` has been fully consumed (its slice ends at or before the
remaining range), and a cached current slice is the slice of some newer
record that has also been consumed up to `min (stop) N`. -/
def KFDriveInv (changes : List Change) (old N p : Nat) (st : KFState) : Prop :=
  st.changes = changes ∧ st.old_tick = old ∧
  (∀ i c, i < st.cursor → changes[i]? = some c → old < c.tick →
    c.slice.stop ≤ p) ∧
  (∀ s, st.cur = some s →
    (∃ c ∈ changes, old < c.tick ∧ c.slice = s) ∧ min s.stop N ≤ p)

/-- `filter_slots` as a case split: either no record was found and the
result is empty, or the found record's slice is intersected with the
input. -/
theorem kfFilter_cases (st : KFState) (slots : Slice) :
    ((findSlice st slots).1 = none ∧
      kfFilter.filter st slots = (Slice.empty, (findSlice st slots).2)) ∨
    (∃ c, (findSlice st slots).1 = some c ∧
      kfFilter.filter st slots = (c.intersect slots, (findSlice st slots).2)) := by
  cases h : (findSlice st slots).1 with
  | none =>
    left
    refine ⟨rfl, ?_⟩
    show (match findSlice st slots with
          | (none, st') => (Slice.empty, st')
          | (some c, st') => (c.intersect slots, st')) = _
    cases hfs : findSlice st slots with
    | mk r s2 =>
      rw [hfs] at h
      simp only at h
      subst h
      rfl
  | some c =>
    right
    refine ⟨c, rfl, ?_⟩
    show (match findSlice st slots with
          | (none, st') => (Slice.empty, st')
          | (some c, st') => (c.intersect slots, st')) = _
    cases hfs : findSlice st slots with
    | mk r s2 =>
      rw [hfs] at h
      simp only at h
      subst h
      rfl

/-- With a live remaining range, the cached current slice never
short-circuits `find_slice` (it has always been fully consumed), so the
scan runs. -/
theorem findSlice_eq_scan_of_inv {changes : List Change} {old N p : Nat}
    {st : KFState} (hp : p < N) (hI : KFDriveInv changes old N p st) :
    findSlice st ⟨p, N⟩ = kfScan st ⟨p, N⟩ := by
  cases hc : st.cur with
  | none => simp [findSlice, hc]
  | some c =>
    have hmin := (hI.2.2.2 c hc).2
    have hno : c.overlaps ⟨p, N⟩ = false := by
      simp only [Slice.overlaps, Bool.decide_and, Bool.and_eq_false_iff,
        decide_eq_false_iff_not, not_lt]
      omega
    simp [findSlice, hc, hno]

/-- Main lemma: a `FilterIter` driving a `change.rs` kind filter over a
remaining range `[p, N)`, starting from a state satisfying the drive
invariant over a start-sorted change list without empty record slices,
never panics and yields exactly the slots of `[p, N)` covered by a record
newer than `old`. -/
theorem kfPartition_aux (changes : List Change) (old N : Nat)
    (hsort : SortedByStart changes)
    (hne : ∀ c ∈ changes, c.slice.start < c.slice.stop) :
    ∀ (fuel p : Nat) (st : KFState), N - p < fuel →
      KFDriveInv changes old N p st →
      (runIterF kfFilter fuel ⟨p, N⟩ st).2 = false ∧
      (∀ slot, inYields (runIterF kfFilter fuel ⟨p, N⟩ st).1 slot ↔
        (p ≤ slot ∧ slot < N ∧ changedAt changes old slot)) := by
  intro fuel
  induction fuel with
  | zero => intro p st h; omega
  | succ fuel ih =>
    intro p st hfuel hI
    obtain ⟨hch, hot, hcursor, hcur⟩ := hI
    subst hch
    subst hot
    by_cases hp : p < N
    · -- live remaining range: the cache is dead, the scan runs
      have hfs : findSlice st ⟨p, N⟩ = kfScan st ⟨p, N⟩ :=
        findSlice_eq_scan_of_inv hp ⟨rfl, rfl, hcursor, hcur⟩
      cases hfwd : findFiltered st.old_tick ⟨p, N⟩ (st.changes.drop st.cursor) with
      | some pr =>
        obtain ⟨idx, ch⟩ := pr
        obtain ⟨k, hk1, hk2, hkt, hko, hkno⟩ := findFiltered_some_spec _ _ _ _ _ hfwd
        rw [List.getElem?_drop] at hk1
        have hkl : st.cursor + k < st.changes.length :=
          (List.getElem?_eq_some_iff.mp hk1).1
        have hmem : ch ∈ st.changes := memOfGetElem hk1
        have hcne := hne ch hmem
        have hto : st.old_tick < ch.tick := hkt
        -- the filter call takes the scan's forward branch
        have hcall : kfFilter.filter st ⟨p, N⟩ =
            (ch.slice.intersect ⟨p, N⟩,
              { st with cur := some ch.slice, cursor := idx }) := by
          rcases kfFilter_cases st ⟨p, N⟩ with ⟨h1, _⟩ | ⟨c, hc1, hc2⟩
          · rw [hfs] at h1
            simp only [kfScan, hfwd] at h1
            cases h1
          · rw [hfs] at hc1 hc2
            simp only [kfScan, hfwd] at hc1 hc2
            simp only [Option.some.injEq] at hc1
            subst hc1
            exact hc2
        have hover : ch.slice.start < N ∧ p < ch.slice.stop := by
          have := hko
          simp only [Slice.overlaps, Bool.decide_and, Bool.and_eq_true,
            decide_eq_true_eq] at this
          exact this
        -- the returned sub-slice
        set y := ch.slice.intersect ⟨p, N⟩ with hy
        have hystart : y.start = max ch.slice.start p := rfl
        have hystop : y.stop = min ch.slice.stop N := by
          simp only [hy, Slice.intersect]
          omega
        have hyne : y.isEmpty = false := by
          rw [Slice.not_isEmpty_iff, hystart, hystop]
          omega
        have hsub : p ≤ y.start ∧ y.stop ≤ N := by
          rw [hystart, hystop]
          omega
        -- the new remaining range
        have hp' : y.stop ≤ N ∧ p < y.stop := by
          rw [hystop]
          omega
        -- re-established invariant
        have hI' : KFDriveInv st.changes st.old_tick N y.stop
            { st with cur := some ch.slice, cursor := idx } := by
          refine ⟨rfl, rfl, ?_, ?_⟩
          · intro i c hi hic hit
            have hi' : i < idx := hi
            rw [hystop]
            by_cases hcmp : i < st.cursor
            · have := hcursor i c hcmp hic hit
              omega
            · have hrel : (st.changes.drop st.cursor)[i - st.cursor]? = some c := by
                rw [List.getElem?_drop]
                have hieq : st.cursor + (i - st.cursor) = i := by omega
                rw [hieq]
                exact hic
              have hrk : i - st.cursor < k := by omega
              have hnov := hkno (i - st.cursor) hrk c hrel hit
              simp only [Slice.overlaps, Bool.decide_and, Bool.and_eq_false_iff,
                decide_eq_false_iff_not, not_lt] at hnov
              -- either consumed, or starting at/after N (excluded by sortedness)
              have hik : i < st.cursor + k := by omega
              have hle : c.slice.start ≤ ch.slice.start :=
                sortedByStart_le hsort hik hic hk1
              rcases hnov with hnov | hnov <;> omega
          · intro s hs
            simp only [Option.some.injEq] at hs
            subst hs
            refine ⟨⟨ch, hmem, hto, rfl⟩, ?_⟩
            rw [hystop]
        have hihrest := ih y.stop { st with cur := some ch.slice, cursor := idx }
          (by omega) hI'
        -- assemble
        rw [runIterF]
        rw [hcall]
        simp only [hyne, Bool.false_eq_true, if_false]
        have hsub' : (Slice.mk p N).start ≤ y.start ∧ y.stop ≤ (Slice.mk p N).stop :=
          hsub
        rw [if_pos hsub']
        cases hrest : runIterF kfFilter fuel ⟨y.stop, N⟩
            { st with cur := some ch.slice, cursor := idx } with
        | mk ys pb =>
          rw [hrest] at hihrest
          refine ⟨hihrest.1, ?_⟩
          intro slot
          have hrmem := hihrest.2 slot
          simp only at hrmem
          constructor
          · intro hyy
            obtain ⟨z, hz1, hz2⟩ := hyy
            cases hz1 with
            | head =>
              obtain ⟨hz3, hz4⟩ := hz2
              rw [hystart] at hz3
              rw [hystop] at hz4
              refine ⟨by omega, by omega, ⟨ch, hmem, hto, by constructor <;> omega⟩⟩
            | tail _ hmem' =>
              have := hrmem.mp ⟨z, hmem', hz2⟩
              exact ⟨by omega, this.2.1, this.2.2⟩
          · rintro ⟨hs1, hs2, hs3⟩
            by_cases hge : y.stop ≤ slot
            · obtain ⟨z, hz1, hz2⟩ := hrmem.mpr ⟨hge, hs2, hs3⟩
              exact ⟨z, List.mem_cons_of_mem _ hz1, hz2⟩
            · -- the slot lies before the new remaining range: it is in `y`
              refine ⟨y, List.mem_cons_self _ _, ?_, by omega⟩
              show y.start ≤ slot
              rw [hystart]
              -- no changed slot lies in the discarded gap `[p, y.start)`
              by_contra hlt
              push_neg at hlt
              have hslotch : slot < ch.slice.start := by
                omega
              obtain ⟨Z, hZm, hZt, hZc⟩ := hs3
              obtain ⟨z, hz⟩ := List.mem_iff_getElem?.mp hZm
              have hZs : Z.slice.start ≤ slot := hZc.1
              have hZe : slot < Z.slice.stop := hZc.2
              by_cases hzc : z < st.cursor
              · have := hcursor z Z hzc hz hZt
                omega
              · by_cases hzk : z - st.cursor < k
                · have hrel : (st.changes.drop st.cursor)[z - st.cursor]? = some Z := by
                    rw [List.getElem?_drop]
                    have hzeq2 : st.cursor + (z - st.cursor) = z := by omega
                    rw [hzeq2]
                    exact hz
                  have hnov := hkno (z - st.cursor) hzk Z hrel hZt
                  simp only [Slice.overlaps, Bool.decide_and, Bool.and_eq_false_iff,
                    decide_eq_false_iff_not, not_lt] at hnov
                  rcases hnov with hnov | hnov <;> omega
                · -- the record sits at or after the found one: sortedness
                  have hzk' : st.cursor + k ≤ z := by omega
                  by_cases hzeq : z = st.cursor + k
                  · subst hzeq
                    rw [hk1] at hz
                    have hZch : Z = ch := by
                      simpa using hz.symm
                    subst hZch
                    omega
                  · have := sortedByStart_le hsort (show st.cursor + k < z by omega)
                      hk1 hz
                    omega
      | none =>
        -- forward scan failed: the wraparound scan finds nothing either and
        -- no changed slot remains
        have hwrap : findFiltered st.old_tick ⟨p, N⟩ (st.changes.take st.cursor) = none := by
          rw [findFiltered_none_iff]
          intro c hcm hct
          obtain ⟨i, hi⟩ := List.mem_iff_getElem?.mp hcm
          have hilt : i < st.cursor := by
            have := List.getElem?_eq_some_iff.mp hi
            have hl := this.1
            simp only [List.length_take] at hl
            omega
          have hig : st.changes[i]? = some c := by
            rw [← List.getElem?_take_of_lt hilt]
            exact hi
          have := hcursor i c hilt hig hct
          simp only [Slice.overlaps, Bool.decide_and, Bool.and_eq_false_iff,
            decide_eq_false_iff_not, not_lt]
          omega
        have hcall : kfFilter.filter st ⟨p, N⟩ = (Slice.empty, st) := by
          rcases kfFilter_cases st ⟨p, N⟩ with ⟨h1, h2⟩ | ⟨c, hc1, hc2⟩
          · rw [h2, hfs]
            simp only [kfScan, hfwd, hwrap]
          · rw [hfs] at hc1
            simp only [kfScan, hfwd, hwrap] at hc1
            cases hc1
        rw [runIterF, hcall]
        have hie : Slice.empty.isEmpty = true := rfl
        rw [if_pos hie]
        refine ⟨rfl, ?_⟩
        intro slot
        constructor
        · intro h
          obtain ⟨y, hy, _⟩ := h
          cases hy
        · rintro ⟨hs1, hs2, Z, hZm, hZt, hZc⟩
          exfalso
          obtain ⟨hZs, hZe⟩ := hZc
          obtain ⟨z, hz⟩ := List.mem_iff_getElem?.mp hZm
          by_cases hzc : z < st.cursor
          · have := hcursor z Z hzc hz hZt
            omega
          · have hrel : (st.changes.drop st.cursor)[z - st.cursor]? = some Z := by
              rw [List.getElem?_drop]
              have hzeq2 : st.cursor + (z - st.cursor) = z := by omega
              rw [hzeq2]
              exact hz
            have := (findFiltered_none_iff _ _ _).mp hfwd Z
              (memOfGetElem hrel) hZt
            simp only [Slice.overlaps, Bool.decide_and, Bool.and_eq_false_iff,
              decide_eq_false_iff_not, not_lt] at this
            rcases this with h | h <;> omega
    · -- exhausted remaining range: the filter result is empty
      have hempty : (kfFilter.filter st ⟨p, N⟩).1.isEmpty = true := by
        rcases kfFilter_cases st ⟨p, N⟩ with ⟨_, h2⟩ | ⟨c, _, hc2⟩
        · rw [h2]
          rfl
        · rw [hc2]
          exact Slice.intersect_isEmpty_of_right _ _ (by
            simp only [Slice.isEmpty, decide_eq_true_eq]
            omega)
      rw [runIterF, if_pos hempty]
      refine ⟨rfl, ?_⟩
      intro slot
      constructor
      · intro h
        obtain ⟨y, hy, _⟩ := h
        cases hy
      · rintro ⟨h1, h2, _⟩
        omega

/-- The partition theorem for a freshly prepared `change.rs` change filter
driven over a whole archetype range `[0, N)`. -/
theorem kfPartition (changes : List Change) (old N : Nat)
    (hsort : SortedByStart changes)
    (hne : ∀ c ∈ changes, c.slice.start < c.slice.stop) :
    (runIter kfFilter ⟨0, N⟩ (KFState.init changes old)).2 = false ∧
    (∀ slot, inYields (runIter kfFilter ⟨0, N⟩ (KFState.init changes old)).1 slot ↔
      (slot < N ∧ changedAt changes old slot)) := by
  have h := kfPartition_aux changes old N hsort hne ((Slice.mk 0 N).len + 1) 0
    (KFState.init changes old)
    (by simp [Slice.len])
    ⟨rfl, rfl, by intro i c hi; simp [KFState.init] at hi, by
      intro s hs; simp [KFState.init] at hs⟩
  rw [runIter]
  refine ⟨h.1, ?_⟩
  intro slot
  rw [h.2 slot]
  exact ⟨fun hh => ⟨hh.2.1, hh.2.2⟩, fun hh => ⟨Nat.zero_le _, hh.1, hh.2⟩⟩

/-! ## Change-list maintenance preserves the filter's preconditions -/

theorem mem_insertByStart (a c : Change) :
    ∀ (l : List Change), a ∈ insertByStart c l ↔ a = c ∨ a ∈ l := by
  intro l
  induction l with
  | nil => simp [insertByStart]
  | cons d rest ih =>
    rw [insertByStart]
    by_cases h : c.slice.start < d.slice.start
    · rw [if_pos h]
      simp only [List.mem_cons]
    · rw [if_neg h]
      simp only [List.mem_cons, ih]
      tauto

theorem insertByStart_sorted (c : Change) :
    ∀ (l : List Change), SortedByStart l → SortedByStart (insertByStart c l) := by
  intro l
  induction l with
  | nil =>
    intro _
    simp [insertByStart, SortedByStart]
  | cons d rest ih =>
    intro hs
    rw [SortedByStart, List.pairwise_cons] at hs
    obtain ⟨hd, hrest⟩ := hs
    rw [insertByStart]
    by_cases h : c.slice.start < d.slice.start
    · rw [if_pos h]
      rw [SortedByStart, List.pairwise_cons]
      refine ⟨?_, ?_⟩
      · intro b hb
        cases hb with
        | head => omega
        | tail _ hb' =>
          have := hd b hb'
          omega
      · rw [List.pairwise_cons]
        exact ⟨hd, hrest⟩
    · rw [if_neg h]
      rw [SortedByStart, List.pairwise_cons]
      refine ⟨?_, ih hrest⟩
      intro b hb
      rw [mem_insertByStart] at hb
      cases hb with
      | inl he => subst he; omega
      | inr hm => exact hd b hm

/-- When the written record is strictly newer than everything in the list,
`set` never coalesces: it is a sorted insertion. -/
theorem setChange_of_tick_gt (l : List Change) (c : Change)
    (h : ∀ d ∈ l, d.tick < c.tick) : setChange l c = insertByStart c l := by
  cases hl : l.getLast? with
  | none =>
    have hnil : l = [] := List.getLast?_eq_none_iff.mp hl
    subst hnil
    simp [setChange, insertByStart]
  | some last =>
    have hmem : last ∈ l := by
      obtain ⟨h0, he⟩ := List.mem_getLast?_eq_getLast (Option.mem_def.mpr hl)
      exact he ▸ List.getLast_mem h0
    have hne2 : last.tick ≠ c.tick := by
      have := h last hmem
      omega
    cases hu : last.slice.union c.slice with
    | none => simp only [setChange, hl, hu]
    | some u => simp only [setChange, hl, hu, if_neg hne2]

theorem writeComponent_tick (w : CWorld) (s : Slice) :
    (writeComponent w s).tick = w.tick + 1 := rfl

theorem writeComponent_spec (w : CWorld) (s : Slice) (hW : w.WF)
    (hs : s.start < s.stop) :
    (writeComponent w s).WF ∧
    (∀ a, a ∈ (writeComponent w s).modified ↔
      a = ⟨s, w.tick + 1⟩ ∨ a ∈ w.modified) := by
  obtain ⟨hsort, htick, hne⟩ := hW
  have hgt : ∀ d ∈ w.modified, d.tick < w.tick + 1 := by
    intro d hd
    have := htick d hd
    omega
  have hset : setChange w.modified ⟨s, w.tick + 1⟩ =
      insertByStart ⟨s, w.tick + 1⟩ w.modified :=
    setChange_of_tick_gt _ _ hgt
  constructor
  · refine ⟨?_, ?_, ?_⟩
    · show SortedByStart (setChange w.modified ⟨s, w.tick + 1⟩)
      rw [hset]
      exact insertByStart_sorted _ _ hsort
    · intro c hc
      show c.tick ≤ w.tick + 1
      rw [show (writeComponent w s).modified =
        setChange w.modified ⟨s, w.tick + 1⟩ from rfl, hset,
        mem_insertByStart] at hc
      cases hc with
      | inl he =>
        subst he
        show w.tick + 1 ≤ w.tick + 1
        omega
      | inr hm =>
        have := htick c hm
        omega
    · intro c hc
      rw [show (writeComponent w s).modified =
        setChange w.modified ⟨s, w.tick + 1⟩ from rfl, hset,
        mem_insertByStart] at hc
      cases hc with
      | inl he => subst he; exact hs
      | inr hm => exact hne c hm
  · intro a
    rw [show (writeComponent w s).modified =
      setChange w.modified ⟨s, w.tick + 1⟩ from rfl, hset, mem_insertByStart]

/-- Applying a batch of writes: well-formedness is preserved, the tick
advances once per write, and the slots with a record newer than any tick
`T ≤ w.tick` are exactly those already changed plus those written by the
batch. -/
theorem applyWrites_spec :
    ∀ (g : List Slice) (w : CWorld), w.WF → (∀ s ∈ g, s.start < s.stop) →
      (applyWrites g w).WF ∧ (applyWrites g w).tick = w.tick + g.length ∧
      (∀ T slot, T ≤ w.tick →
        (changedAt (applyWrites g w).modified T slot ↔
          changedAt w.modified T slot ∨ ∃ s ∈ g, s.contains slot)) := by
  intro g
  induction g with
  | nil =>
    intro w hW _
    refine ⟨hW, by simp [applyWrites], ?_⟩
    intro T slot _
    simp [applyWrites]
  | cons s g ih =>
    intro w hW hg
    have hs := hg s (List.mem_cons_self _ _)
    have hg' : ∀ x ∈ g, x.start < x.stop := fun x hx => hg x (List.mem_cons_of_mem _ hx)
    obtain ⟨hW', hmem⟩ := writeComponent_spec w s hW hs
    have happ : applyWrites (s :: g) w = applyWrites g (writeComponent w s) := rfl
    obtain ⟨ihW, ihtick, ihch⟩ := ih (writeComponent w s) hW' hg'
    refine ⟨happ ▸ ihW, ?_, ?_⟩
    · rw [happ, ihtick, writeComponent_tick]
      simp only [List.length_cons]
      omega
    · intro T slot hT
      rw [happ, ihch T slot (by rw [writeComponent_tick]; omega)]
      constructor
      · rintro (hc | hsg)
        · obtain ⟨c, hcm, hct, hcc⟩ := hc
          rw [hmem c] at hcm
          cases hcm with
          | inl he =>
            subst he
            exact Or.inr ⟨s, List.mem_cons_self _ _, hcc⟩
          | inr hm => exact Or.inl ⟨c, hm, hct, hcc⟩
        · obtain ⟨x, hx, hxc⟩ := hsg
          exact Or.inr ⟨x, List.mem_cons_of_mem _ hx, hxc⟩
      · rintro (hc | ⟨x, hx, hxc⟩)
        · obtain ⟨c, hcm, hct, hcc⟩ := hc
          exact Or.inl ⟨c, (hmem c).mpr (Or.inr hcm), hct, hcc⟩
        · cases hx with
          | head =>
            refine Or.inl ⟨⟨s, w.tick + 1⟩, (hmem _).mpr (Or.inl rfl), ?_, hxc⟩
            show T < w.tick + 1
            omega
          | tail _ hx' => exact Or.inr ⟨x, hx', hxc⟩

/-- C1 — Change-detection round trip. First conjunct (round trip): from any
well-formed per-component state `w`, after a batch `g` of component writes,
a change query whose last run observed `w.tick` (driving `FilterIter` with
the prepared `change.rs` change filter over the whole slot range `[0, N)`)
never panics and yields exactly the slots written by `g`, each at most once
per run. Second conjunct (partition form): over any start-sorted change
list without empty record slices, the driven filter yields sub-slices that
partition exactly the set of slots having a matching change record newer
than the query's last-seen tick. -/
theorem c1_change_detection_round_trip :
    (∀ (w : CWorld) (g : List Slice) (N : Nat), w.WF →
      (∀ s ∈ g, s.start < s.stop) →
      (runIter kfFilter ⟨0, N⟩
        (KFState.init (applyWrites g w).modified w.tick)).2 = false ∧
      (∀ slot, inYields (runIter kfFilter ⟨0, N⟩
          (KFState.init (applyWrites g w).modified w.tick)).1 slot ↔
        (slot < N ∧ ∃ s ∈ g, s.contains slot)) ∧
      (∀ slot, ((runIter kfFilter ⟨0, N⟩
          (KFState.init (applyWrites g w).modified w.tick)).1.countP
        (fun y => decide (y.contains slot))) ≤ 1)) ∧
    (∀ (changes : List Change) (old N : Nat), SortedByStart changes →
      (∀ c ∈ changes, c.slice.start < c.slice.stop) →
      (runIter kfFilter ⟨0, N⟩ (KFState.init changes old)).2 = false ∧
      (∀ slot, inYields (runIter kfFilter ⟨0, N⟩
          (KFState.init changes old)).1 slot ↔
        (slot < N ∧ changedAt changes old slot)) ∧
      (∀ slot, ((runIter kfFilter ⟨0, N⟩
          (KFState.init changes old)).1.countP
        (fun y => decide (y.contains slot))) ≤ 1)) := by
  constructor
  · intro w g N hW hg
    obtain ⟨⟨hsort', htick', hne'⟩, htick, hch⟩ := applyWrites_spec g w hW hg
    have hpart := kfPartition (applyWrites g w).modified w.tick N hsort' hne'
    refine ⟨hpart.1, ?_, ?_⟩
    · intro slot
      rw [hpart.2 slot]
      have hnochange : ¬ changedAt w.modified w.tick slot ∨ True := Or.inr trivial
      rw [hch w.tick slot (le_refl _)]
      constructor
      · rintro ⟨h1, hc | hs⟩
        · obtain ⟨c, hcm, hct, _⟩ := hc
          have := hW.2.1 c hcm
          omega
        · exact ⟨h1, hs⟩
      · rintro ⟨h1, hs⟩
        exact ⟨h1, Or.inr hs⟩
    · intro slot
      exact chainWithin_at_most_once (runIter_chain kfFilter ⟨0, N⟩ _) slot
  · intro changes old N hsort hne
    have hpart := kfPartition changes old N hsort hne
    refine ⟨hpart.1, hpart.2, ?_⟩
    intro slot
    exact chainWithin_at_most_once (runIter_chain kfFilter ⟨0, N⟩ _) slot

/-- Witness for C1: a concrete round trip. From an empty world, write slots
`[1, 3)`; the next change-query run yields slot `2` but not slot `4`, and
the partition form applies to the sample change list of the repository's
own test. -/
theorem c1_witness :
    (⟨[], 0⟩ : CWorld).WF ∧
    inYields (runIter kfFilter ⟨0, 5⟩
      (KFState.init (applyWrites [⟨1, 3⟩] ⟨[], 0⟩).modified 0)).1 2 ∧
    ¬ inYields (runIter kfFilter ⟨0, 5⟩
      (KFState.init (applyWrites [⟨1, 3⟩] ⟨[], 0⟩).modified 0)).1 4 ∧
    (∀ slot, inYields (runIter kfFilter ⟨0, 500⟩
        (KFState.init sampleChanges 2)).1 slot ↔
      (slot < 500 ∧ changedAt sampleChanges 2 slot)) := by
  have hWF : (⟨[], 0⟩ : CWorld).WF := by
    refine ⟨?_, ?_, ?_⟩ <;> simp [SortedByStart]
  have h1 := c1_change_detection_round_trip.1 ⟨[], 0⟩ [⟨1, 3⟩] 5 hWF
    (by intro s hs; simp at hs; subst hs; decide)
  have h2 := c1_change_detection_round_trip.2 sampleChanges 2 500
    (by decide) (by decide)
  refine ⟨hWF, ?_, ?_, h2.2.1⟩
  · exact (h1.2.1 2).mpr ⟨by decide, ⟨1, 3⟩, by simp, by decide⟩
  · intro hc
    have := (h1.2.1 4).mp hc
    obtain ⟨_, s, hs, hsc⟩ := this
    simp at hs
    subst hs
    revert hsc
    decide

/-! ## Soundness of the `mod.rs` kind filter -/

/-- The state invariant of the `mod.rs` kind filter: a cached current slice
is always the slice of some record newer than the query tick and of the
requested kind. -/
def KMInv (st : KMState) : Prop :=
  ∀ s, st.cur = some s →
    ∃ c ∈ st.changes, st.tick < c.tick ∧ st.kind = c.kind ∧ c.slice = s

theorem kmScanList_spec (tick : Nat) (kind : ChangeKind) (slots : Slice) :
    ∀ (l : List ChangeM),
      (∀ slot, (kmScanList tick kind slots l).1.contains slot →
        ∃ c ∈ l, tick < c.tick ∧ kind = c.kind ∧
          c.slice.contains slot ∧ slots.contains slot) ∧
      (∀ s, (kmScanList tick kind slots l).2.1 = some s →
        ∃ c ∈ l, tick < c.tick ∧ kind = c.kind ∧ c.slice = s) := by
  intro l
  induction l with
  | nil =>
    constructor
    · intro slot hs
      obtain ⟨h1, h2⟩ := hs
      simp only [kmScanList, Slice.empty] at h1 h2
      omega
    · intro s hs
      simp only [kmScanList] at hs
      cases hs
  | cons c rest ih =>
    by_cases hm : tick < c.tick ∧ kind = c.kind
    · by_cases he : (c.slice.intersect slots).isEmpty = true
      · cases hs : kmScanList tick kind slots rest with
        | mk r p =>
          cases p with
          | mk cur n =>
            constructor
            · intro slot hc
              simp only [kmScanList, if_pos hm, if_pos he, hs] at hc
              obtain ⟨d, hd1, hd2, hd3, hd4, hd5⟩ := (ih.1 slot (by rw [hs]; exact hc))
              exact ⟨d, List.mem_cons_of_mem _ hd1, hd2, hd3, hd4, hd5⟩
            · intro s hcur
              simp only [kmScanList, if_pos hm, if_pos he, hs] at hcur
              obtain ⟨d, hd1, hd2, hd3, hd4⟩ := (ih.2 s (by rw [hs]; exact hcur))
              exact ⟨d, List.mem_cons_of_mem _ hd1, hd2, hd3, hd4⟩
      · constructor
        · intro slot hc
          simp only [kmScanList, if_pos hm, if_neg he] at hc
          rw [Slice.contains_intersect] at hc
          exact ⟨c, List.mem_cons_self _ _, hm.1, hm.2, hc.1, hc.2⟩
        · intro s hcur
          simp only [kmScanList, if_pos hm, if_neg he] at hcur
          simp only [Option.some.injEq] at hcur
          exact ⟨c, List.mem_cons_self _ _, hm.1, hm.2, hcur⟩
    · cases hs : kmScanList tick kind slots rest with
      | mk r p =>
        cases p with
        | mk cur n =>
          constructor
          · intro slot hc
            simp only [kmScanList, if_neg hm, hs] at hc
            obtain ⟨d, hd1, hd2, hd3, hd4, hd5⟩ := (ih.1 slot (by rw [hs]; exact hc))
            exact ⟨d, List.mem_cons_of_mem _ hd1, hd2, hd3, hd4, hd5⟩
          · intro s hcur
            simp only [kmScanList, if_neg hm, hs] at hcur
            obtain ⟨d, hd1, hd2, hd3, hd4⟩ := (ih.2 s (by rw [hs]; exact hcur))
            exact ⟨d, List.mem_cons_of_mem _ hd1, hd2, hd3, hd4⟩

theorem kmFilter_step_sound (st : KMState) (slots : Slice) (hI : KMInv st) :
    (∀ slot, (kmPFilter.filter st slots).1.contains slot →
      (∃ c ∈ st.changes, st.tick < c.tick ∧ st.kind = c.kind ∧
        c.slice.contains slot)) ∧
    KMInv (kmPFilter.filter st slots).2 ∧
    (kmPFilter.filter st slots).2.changes = st.changes ∧
    (kmPFilter.filter st slots).2.tick = st.tick ∧
    (kmPFilter.filter st slots).2.kind = st.kind := by
  have hscan :
      ∀ (st' : KMState), st'.changes = st.changes → st'.tick = st.tick →
        st'.kind = st.kind → ∀ (ix : Nat),
      (∀ slot,
        (kmScanList st.tick st.kind slots (st.changes.drop ix)).1.contains slot →
        ∃ c ∈ st.changes, st.tick < c.tick ∧ st.kind = c.kind ∧
          c.slice.contains slot) ∧
      (∀ s, (kmScanList st.tick st.kind slots (st.changes.drop ix)).2.1 = some s →
        ∃ c ∈ st.changes, st.tick < c.tick ∧ st.kind = c.kind ∧ c.slice = s) := by
    intro st' _ _ _ ix
    have h := kmScanList_spec st.tick st.kind slots (st.changes.drop ix)
    constructor
    · intro slot hs
      obtain ⟨d, hd1, hd2, hd3, hd4, _⟩ := h.1 slot hs
      exact ⟨d, List.mem_of_mem_drop hd1, hd2, hd3, hd4⟩
    · intro s hs
      obtain ⟨d, hd1, hd2, hd3, hd4⟩ := h.2 s hs
      exact ⟨d, List.mem_of_mem_drop hd1, hd2, hd3, hd4⟩
  cases hc : st.cur with
  | some c =>
    by_cases he : (c.intersect slots).isEmpty = true
    · cases hs : kmScanList st.tick st.kind slots (st.changes.drop st.index) with
      | mk r p =>
        cases p with
        | mk cur n =>
          have h := hscan st rfl rfl rfl st.index
          rw [hs] at h
          have hfe : kmPFilter.filter st slots =
              (r, { st with cur := cur, index := st.index + n }) := by
            simp only [kmPFilter, kmFilter, hc, if_pos he, hs]
          rw [hfe]
          refine ⟨h.1, ?_, rfl, rfl, rfl⟩
          intro s hcur
          exact h.2 s hcur
    · have hfe : kmPFilter.filter st slots = (c.intersect slots, st) := by
        simp only [kmPFilter, kmFilter, hc, if_neg he]
      rw [hfe]
      refine ⟨?_, hI, rfl, rfl, rfl⟩
      intro slot hs
      rw [Slice.contains_intersect] at hs
      obtain ⟨d, hd1, hd2, hd3, hd4⟩ := hI c hc
      exact ⟨d, hd1, hd2, hd3, hd4 ▸ hs.1⟩
  | none =>
    cases hs : kmScanList st.tick st.kind slots (st.changes.drop st.index) with
    | mk r p =>
      cases p with
      | mk cur n =>
        have h := hscan st rfl rfl rfl st.index
        rw [hs] at h
        have hfe : kmPFilter.filter st slots =
            (r, { st with cur := cur, index := st.index + n }) := by
          simp only [kmPFilter, kmFilter, hc, hs]
        rw [hfe]
        refine ⟨h.1, ?_, rfl, rfl, rfl⟩
        intro s hcur
        exact h.2 s hcur

/-- C6 — Every slot yielded by a prepared change filter lies inside the
slice of some change record of the requested kind whose tick is strictly
newer than the query's `old_tick`; records at or below `old_tick` never
contribute. Stated for both generations of the filter: the `change.rs`
`PreparedKindFilter` (whose record list is pre-keyed by kind by `prepare`)
and the `mod.rs` one (which checks the kind per record). -/
theorem c6_change_filter_soundness :
    (∀ (changes : List Change) (old N slot : Nat),
      inYields (runIter kfFilter ⟨0, N⟩ (KFState.init changes old)).1 slot →
      ∃ c ∈ changes, old < c.tick ∧ c.slice.contains slot) ∧
    (∀ (changes : List ChangeM) (tick : Nat) (kind : ChangeKind) (N slot : Nat),
      inYields (runIter kmPFilter ⟨0, N⟩ (KMState.init changes tick kind)).1 slot →
      ∃ c ∈ changes, tick < c.tick ∧ kind = c.kind ∧ c.slice.contains slot) := by
  constructor
  · intro changes old N slot hy
    refine runIterF_sound kfFilter
      (fun st => KFInv st ∧ st.changes = changes ∧ st.old_tick = old)
      (fun slot => ∃ c ∈ changes, old < c.tick ∧ c.slice.contains slot)
      ?_ _ _ _ ⟨?_, rfl, rfl⟩ slot hy
    · intro st slots hI
      obtain ⟨hInv, hch, hot⟩ := hI
      obtain ⟨h1, h2, h3, h4⟩ := kfFilter_step_sound st slots hInv
      refine ⟨?_, h2, by rw [h3, hch], by rw [h4, hot]⟩
      intro s hs
      obtain ⟨⟨c, hc1, hc2, hc3⟩, _⟩ := h1 s hs
      exact ⟨c, hch ▸ hc1, hot ▸ hc2, hc3⟩
    · intro s hs
      simp [KFState.init] at hs
  · intro changes tick kind N slot hy
    refine runIterF_sound kmPFilter
      (fun st => KMInv st ∧ st.changes = changes ∧ st.tick = tick ∧ st.kind = kind)
      (fun slot => ∃ c ∈ changes, tick < c.tick ∧ kind = c.kind ∧
        c.slice.contains slot)
      ?_ _ _ _ ⟨?_, rfl, rfl, rfl⟩ slot hy
    · intro st slots hI
      obtain ⟨hInv, hch, hot, hkd⟩ := hI
      obtain ⟨h1, h2, h3, h4, h5⟩ := kmFilter_step_sound st slots hInv
      refine ⟨?_, h2, by rw [h3, hch], by rw [h4, hot], by rw [h5, hkd]⟩
      intro s hs
      obtain ⟨c, hc1, hc2, hc3, hc4⟩ := h1 s hs
      exact ⟨c, hch ▸ hc1, hot ▸ hc2, hkd ▸ hc3, hc4⟩
    · intro s hs
      simp [KMState.init] at hs

/-- Witness for C6: slot 45 of the repository's own `filter_slices` sample
is yielded, and the theorem produces its covering record. -/
theorem c6_witness :
    inYields (runIter kfFilter ⟨0, 500⟩ (KFState.init sampleChanges 2)).1 45 ∧
    (∃ c ∈ sampleChanges, 2 < c.tick ∧ c.slice.contains 45) ∧
    inYields (runIter kmPFilter ⟨0, 1238⟩
      (KMState.init sampleChangesM 2 .modified)).1 600 ∧
    (∃ c ∈ sampleChangesM, 2 < c.tick ∧ ChangeKind.modified = c.kind ∧
      c.slice.contains 600) := by
  refine ⟨by decide, ?_, by decide, ?_⟩
  · exact c6_change_filter_soundness.1 sampleChanges 2 500 45 (by decide)
  · exact c6_change_filter_soundness.2 sampleChangesM 2 .modified 1238 600 (by decide)

/-! ## Query bookkeeping and schedule claims -/

/-- C2 counterexample — one archetype (id 0) that the fetch matches but the
filter does not: the rebuilt cache still contains it (the filter is never
consulted), and the generation snapshot is not updated to the world's
counter. Under the claim the cache would be `[]` and the snapshot `1`. -/
theorem c2_counterexample :
    (getArchetypes (fun a => a) ⟨[], 7, 0⟩ ⟨[(0, true)], 1⟩).archetypes = [0] ∧
    (fun a : Bool => !a) true = false ∧
    (getArchetypes (fun a => a) ⟨[], 7, 0⟩ ⟨[(0, true)], 1⟩).archetypes ≠ [] ∧
    (getArchetypes (fun a => a) ⟨[], 7, 0⟩ ⟨[(0, true)], 1⟩).archetype_gen = 0 ∧
    (0 : Nat) ≠ 1 := by
  decide

/-- C2 (amended) — When the world's archetype generation counter exceeds
the query's snapshot, the cache is rebuilt to contain exactly the ids of
the archetypes the *fetch* matches (the filter is not consulted), and the
snapshot is *not* updated, so the rebuild recurs on every later run while
the counter exceeds the snapshot; when the counter does not exceed the
snapshot the query is untouched. -/
theorem c2_archetype_cache_rebuild {α : Type} (fetchMatches : α → Bool)
    (q : QueryState) (w : ArchWorld α) :
    (q.archetype_gen < w.archetype_gen →
      (∀ id, id ∈ (getArchetypes fetchMatches q w).archetypes ↔
        ∃ a, (id, a) ∈ w.archetypes ∧ fetchMatches a = true)) ∧
    (¬ q.archetype_gen < w.archetype_gen → getArchetypes fetchMatches q w = q) ∧
    (getArchetypes fetchMatches q w).archetype_gen = q.archetype_gen ∧
    (getArchetypes fetchMatches q w).change_tick = q.change_tick := by
  by_cases h : q.archetype_gen < w.archetype_gen
  · refine ⟨?_, fun hcon => absurd h hcon, ?_, ?_⟩
    · intro _ id
      simp only [getArchetypes, if_pos h, List.mem_map, List.mem_filter]
      constructor
      · rintro ⟨⟨i, a⟩, ⟨hm, hf⟩, he⟩
        subst he
        exact ⟨a, hm, hf⟩
      · rintro ⟨a, hm, hf⟩
        exact ⟨(id, a), ⟨hm, hf⟩, rfl⟩
    · simp [getArchetypes, if_pos h]
    · simp [getArchetypes, if_pos h]
  · refine ⟨fun hcon => absurd hcon h, ?_, ?_, ?_⟩
    · intro _
      simp [getArchetypes, if_neg h]
    · simp [getArchetypes, if_neg h]
    · simp [getArchetypes, if_neg h]

/-- Witness for C2 (amended): a two-archetype world where only archetype 5
matches the fetch; after the rebuild the cache holds exactly id 5 and the
snapshot still reads 0. -/
theorem c2_witness :
    (5 ∈ (getArchetypes (fun a => a) ⟨[], 4, 0⟩
      ⟨[(5, true), (9, false)], 3⟩).archetypes ↔
      ∃ a, ((5 : Nat), a) ∈ [((5 : Nat), true), (9, false)] ∧ a = true) ∧
    (getArchetypes (fun a => a) ⟨[], 4, 0⟩
      ⟨[(5, true), (9, false)], 3⟩).archetype_gen = 0 := by
  have h := c2_archetype_cache_rebuild (fun a : Bool => a) ⟨[], 4, 0⟩
    ⟨[(5, true), (9, false)], 3⟩
  exact ⟨h.1 (by decide) 5, h.2.2.1⟩

/-- C7 — `Query::get` passes `Slice::new(slot, slot)` to `set_visited`: a
half-open *empty* slice, not the singleton `{slot}`. Consequently the
`modified` record written for a mutable fetch covers no slot at all: after
a `get` at slot 3 with new tick 9 on an empty change list, slot 3 is still
not seen as changed by a query with `old_tick = 8`. -/
theorem c7_get_visited_slice_empty :
    getVisitedSlice 3 = ⟨3, 3⟩ ∧
    (getVisitedSlice 3).isEmpty = true ∧
    ¬ (getVisitedSlice 3).contains 3 ∧
    ¬ changedAt (queryGetVisit [] 3 9) 8 3 := by
  decide

/-- C8 — `Query::prepare_tick`: a read-only run returns the world's tick
unchanged and leaves the world alone; a mutable run advances the tick by
exactly one and observes the advanced value; in both cases the old tick is
the query's previous tick and the query stores the observed tick. -/
theorem c8_prepare_tick (q : QueryState) (w : TickWorld) :
    (prepareTick false q w).1.1 = q.change_tick ∧
    (prepareTick true q w).1.1 = q.change_tick ∧
    (prepareTick false q w).2.2 = w ∧
    (prepareTick false q w).1.2 = w.change_tick ∧
    (prepareTick true q w).2.2.change_tick = w.change_tick + 1 ∧
    (prepareTick true q w).1.2 = w.change_tick + 1 ∧
    (prepareTick false q w).2.1.change_tick = (prepareTick false q w).1.2 ∧
    (prepareTick true q w).2.1.change_tick = (prepareTick true q w).1.2 :=
  ⟨rfl, rfl, rfl, rfl, rfl, rfl, rfl, rfl⟩

/-- C9 — `Schedule::execute_seq`: if every system succeeds the result is
`none` and the executed trace is every system's name in declared order; if
a system fails, execution stops at it (the trace is the names up to and
including it) and the error is surfaced paired with that system's name. -/
theorem c9_execute_seq_abort {α ε : Type} (systems : List (SysModel α ε)) (w : α) :
    ((executeSeq systems w).2 = none →
      (executeSeq systems w).1 = systems.map SysModel.name) ∧
    (∀ n e, (executeSeq systems w).2 = some (n, e) →
      ∃ i s, systems[i]? = some s ∧ n = s.name ∧
        (executeSeq systems w).1 = (systems.take (i + 1)).map SysModel.name) := by
  induction systems generalizing w with
  | nil =>
    constructor
    · intro _
      rfl
    · intro n e h
      simp [executeSeq] at h
  | cons s rest ih =>
    cases hr : s.run w with
    | error e0 =>
      constructor
      · intro h
        simp only [executeSeq, hr] at h
        cases h
      · intro n e h
        simp only [executeSeq, hr] at h ⊢
        simp only [Option.some.injEq, Prod.mk.injEq] at h
        refine ⟨0, s, by simp, h.1.symm, ?_⟩
        simp
    | ok w' =>
      cases hrec : executeSeq rest w' with
      | mk tr res =>
        have ihw := ih w'
        rw [hrec] at ihw
        constructor
        · intro h
          simp only [executeSeq, hr, hrec] at h ⊢
          have htr : tr = List.map SysModel.name rest := ihw.1 h
          rw [htr, List.map_cons]
        · intro n e h
          simp only [executeSeq, hr, hrec] at h ⊢
          obtain ⟨i, s', hi, hn, htr⟩ := ihw.2 n e h
          refine ⟨i + 1, s', by simpa using hi, hn, ?_⟩
          have htr' : tr = List.map SysModel.name (List.take (i + 1) rest) := htr
          rw [htr', List.take_succ_cons, List.map_cons]

/-- Witness for C9: three concrete systems of which the second fails; the
theorem locates the failure at the second system and the trace stops
there. -/
theorem c9_witness :
    ∃ i s, [(⟨"sys_a", fun n => Except.ok (n + 1)⟩ : SysModel Nat String),
      ⟨"sys_b", fun _ => Except.error "boom"⟩,
      ⟨"sys_c", fun n => Except.ok n⟩][i]? = some s ∧
      "sys_b" = s.name ∧
      (executeSeq [(⟨"sys_a", fun n => Except.ok (n + 1)⟩ : SysModel Nat String),
        ⟨"sys_b", fun _ => Except.error "boom"⟩,
        ⟨"sys_c", fun n => Except.ok n⟩] 0).1 =
        ([(⟨"sys_a", fun n => Except.ok (n + 1)⟩ : SysModel Nat String),
          ⟨"sys_b", fun _ => Except.error "boom"⟩,
          ⟨"sys_c", fun n => Except.ok n⟩].take (i + 1)).map SysModel.name := by
  exact (c9_execute_seq_abort _ 0).2 "sys_b" "boom" rfl

/-! ## FilterIter behaviour (C10) -/

/-- The filter only returns sub-slices of its remaining input (whenever the
result is non-empty). -/
def SubResult {σ : Type} (F : PFilter σ) : Prop :=
  ∀ st s, (F.filter st s).1.isEmpty = false →
    s.start ≤ (F.filter st s).1.start ∧ (F.filter st s).1.stop ≤ s.stop

/-- The filter's returned slice depends only on the input slice, not on the
filter's internal state. -/
def StateIndep {σ : Type} (F : PFilter σ) : Prop :=
  ∀ st st' s, (F.filter st s).1 = (F.filter st' s).1

theorem runIterF_no_panic {σ : Type} (F : PFilter σ) (hsub : SubResult F) :
    ∀ (fuel : Nat) (slots : Slice) (st : σ),
      (runIterF F fuel slots st).2 = false := by
  intro fuel
  induction fuel with
  | zero => intro slots st; rfl
  | succ fuel ih =>
    intro slots st
    rw [runIterF]
    by_cases h1 : (F.filter st slots).1.isEmpty = true
    · rw [if_pos h1]
    · rw [if_neg h1]
      have h2 := hsub st slots (Bool.not_eq_true _ ▸ h1)
      rw [if_pos h2]
      cases hr : runIterF F fuel ⟨(F.filter st slots).1.stop, slots.stop⟩
          (F.filter st slots).2 with
      | mk ys pb =>
        have := ih ⟨(F.filter st slots).1.stop, slots.stop⟩ (F.filter st slots).2
        rw [hr] at this
        exact this

theorem runIterF_length {σ : Type} (F : PFilter σ) :
    ∀ (fuel : Nat) (slots : Slice) (st : σ),
      (runIterF F fuel slots st).1.length ≤ slots.len := by
  intro fuel
  induction fuel with
  | zero => intro slots st; simp [runIterF]
  | succ fuel ih =>
    intro slots st
    rw [runIterF]
    by_cases h1 : (F.filter st slots).1.isEmpty = true
    · simp [h1]
    · rw [if_neg h1]
      by_cases h2 : slots.start ≤ (F.filter st slots).1.start ∧
          (F.filter st slots).1.stop ≤ slots.stop
      · rw [if_pos h2]
        have hne := (Slice.not_isEmpty_iff (F.filter st slots).1).mp
          (Bool.not_eq_true _ ▸ h1)
        cases hr : runIterF F fuel ⟨(F.filter st slots).1.stop, slots.stop⟩
            (F.filter st slots).2 with
        | mk ys pb =>
          have := ih ⟨(F.filter st slots).1.stop, slots.stop⟩ (F.filter st slots).2
          rw [hr] at this
          simp only [List.length_cons, Slice.len] at this ⊢
          omega
      · rw [if_neg h2]
        simp [Slice.len]

/-- C10 (amended) — For a prepared filter that always returns sub-slices of
its remaining input, a driven `FilterIter` never panics, yields an
ascending chain of non-empty pairwise-disjoint slices within the initial
range (each slot at most once), yields at most `slots.len` items, and the
fuelled run is already stable at fuel `slots.len + 1` (termination). A
filter result that is not a sub-slice of the remaining input makes `next`
panic instead of yielding. The fused property (`None` forever after the
first `None`) holds for filters whose result depends only on the input
slice — but not for every sub-slice-returning filter (see the
counterexample). -/
theorem c10_filter_iter_behaviour {σ : Type} (F : PFilter σ) :
    (SubResult F → ∀ (slots : Slice) (st : σ),
      (runIter F slots st).2 = false ∧
      ChainWithin slots.start slots.stop (runIter F slots st).1 ∧
      (∀ slot, (runIter F slots st).1.countP
        (fun y => decide (y.contains slot)) ≤ 1) ∧
      (runIter F slots st).1.length ≤ slots.len ∧
      (∀ fuel, slots.len < fuel → runIterF F fuel slots st = runIter F slots st)) ∧
    (∀ (slots : Slice) (st : σ), (F.filter st slots).1.isEmpty = false →
      slots.splitWith (F.filter st slots).1 = none →
      nextIter F (slots, st) = .panic) ∧
    (StateIndep F → ∀ (slots : Slice) (st st' : σ),
      (F.filter st slots).1.isEmpty = true →
      nextIter F (slots, st') = .done (slots, (F.filter st' slots).2)) := by
  refine ⟨?_, ?_, ?_⟩
  · intro hsub slots st
    refine ⟨runIterF_no_panic F hsub _ slots st, runIterF_chain F _ slots st,
      ?_, runIterF_length F _ slots st, ?_⟩
    · intro slot
      exact chainWithin_at_most_once (runIterF_chain F _ slots st) slot
    · intro fuel hf
      exact runIterF_stable F fuel (slots.len + 1) slots st hf (by omega)
  · intro slots st h1 h2
    simp only [nextIter, h1, h2, Bool.false_eq_true, if_false]
  · intro hind slots st st' h1
    have he : (F.filter st' slots).1.isEmpty = true := by
      rw [hind st' st slots]
      exact h1
    simp only [nextIter, he, if_true]

/-- C10 counterexample — a prepared filter whose results are always
sub-slices of the input, yet whose driven `FilterIter` yields `Some` again
after having returned `None` (the unconditional `FusedIterator` contract is
violated): from filter state `false` the next call returns `None` leaving
the iterator in state `(⟨2,5⟩, true)`, whose next call yields `[2,5)`. -/
def flipFilter : PFilter Bool where
  filter := fun st slots => if st then (slots, false) else (Slice.empty, true)

theorem c10_counterexample :
    SubResult flipFilter ∧
    nextIter flipFilter (⟨2, 5⟩, false) = .done (⟨2, 5⟩, true) ∧
    nextIter flipFilter (⟨2, 5⟩, true) = .yield ⟨2, 5⟩ (⟨5, 5⟩, false) := by
  refine ⟨?_, rfl, rfl⟩
  intro st s h
  cases st
  · simp [flipFilter, Slice.empty, Slice.isEmpty] at h
  · simp only [flipFilter, if_true]
    exact ⟨le_refl _, le_refl _⟩

/-- Witness for C10: the behaviour theorem applied to the always-true
boolean filter over `[1, 4)`. -/
theorem c10_witness :
    (runIter (booleanFilter true) ⟨1, 4⟩ ()).2 = false ∧
    ChainWithin 1 4 (runIter (booleanFilter true) ⟨1, 4⟩ ()).1 ∧
    nextIter (booleanFilter false) (⟨1, 4⟩, ()) =
      .done (⟨1, 4⟩, ()) := by
  have hsub : SubResult (booleanFilter true) := by
    intro st s h
    exact ⟨le_refl _, le_refl _⟩
  have hind : StateIndep (booleanFilter false) := by
    intro st st' s
    rfl
  have h := (c10_filter_iter_behaviour (booleanFilter true)).1 hsub ⟨1, 4⟩ ()
  have h2 := (c10_filter_iter_behaviour (booleanFilter false)).2.2 hind ⟨1, 4⟩ () ()
    (by rfl)
  exact ⟨h.1, h.2.1, h2⟩

/-! ## The `And`/`Or` combinator claims (C3, C4) -/

def andChanges1 : List ChangeM := [⟨⟨0, 2⟩, 3, .modified⟩, ⟨⟨50, 60⟩, 3, .modified⟩]

def andChanges2 : List ChangeM := [⟨⟨5, 7⟩, 3, .modified⟩, ⟨⟨50, 60⟩, 3, .modified⟩]

/-- C3 — failing input for `iterate(And(F,G), s) = iterate(F,s) ∩
iterate(G,s)`: two prepared `mod.rs` change-kind filters over start-sorted
change lists. Iterated separately, both yield slot 50 (their intersection
is `[50,60)`), but the driven `And` yields nothing: its first call returns
`[0,2) ∩ [5,7) = ∅`, and the single retry from `max(0,5) = 5` advances the
left cursor past `[0,2)` to `[50,60)` while the right side still returns
`[5,7)`, so the retried intersection is empty and iteration stops. -/
theorem c3_and_misses_intersection :
    (runIter (pAnd kmPFilter kmPFilter) ⟨0, 100⟩
      (KMState.init andChanges1 2 .modified,
       KMState.init andChanges2 2 .modified)).1 = [] ∧
    (runIter kmPFilter ⟨0, 100⟩ (KMState.init andChanges1 2 .modified)).1 =
      [⟨0, 2⟩, ⟨50, 60⟩] ∧
    (runIter kmPFilter ⟨0, 100⟩ (KMState.init andChanges2 2 .modified)).1 =
      [⟨5, 7⟩, ⟨50, 60⟩] ∧
    inYields [⟨0, 2⟩, ⟨50, 60⟩] 50 ∧
    inYields [⟨5, 7⟩, ⟨50, 60⟩] 50 ∧
    ¬ inYields ([] : List Slice) 50 := by
  decide

def orChanges1 : List ChangeM := [⟨⟨0, 2⟩, 3, .modified⟩]

def orChanges2 : List ChangeM := [⟨⟨50, 60⟩, 3, .modified⟩]

/-- C4 — failing input for `iterate(Or(F,G), s) = iterate(F,s) ∪
iterate(G,s)`: once the left filter is exhausted it returns the empty
slice `[0,0)`, which is not contiguous with the right result `[50,60)`, so
`Or` returns the (empty) left half and the driving iterator terminates —
the right side's slots are lost instead of being produced by a subsequent
call. Separately, the right filter yields `[50,60)`. -/
theorem c4_or_drops_right :
    (runIter (pOr kmPFilter kmPFilter) ⟨0, 100⟩
      (KMState.init orChanges1 2 .modified,
       KMState.init orChanges2 2 .modified)).1 = [⟨0, 2⟩] ∧
    (runIter kmPFilter ⟨0, 100⟩ (KMState.init orChanges1 2 .modified)).1 =
      [⟨0, 2⟩] ∧
    (runIter kmPFilter ⟨0, 100⟩ (KMState.init orChanges2 2 .modified)).1 =
      [⟨50, 60⟩] ∧
    inYields [⟨50, 60⟩] 50 ∧
    ¬ inYields [⟨0, 2⟩] 50 := by
  decide

/-! ## The `Not` combinator claim (C5) -/

/-- The filter's result is always a prefix of its (well-formed) input
slice: it starts where the input starts and ends no later. -/
def PrefixResult {σ : Type} (F : PFilter σ) : Prop :=
  ∀ st s, s.start ≤ s.stop →
    (F.filter st s).1.start = s.start ∧ s.start ≤ (F.filter st s).1.stop ∧
    (F.filter st s).1.stop ≤ s.stop

/-- C5 (amended) — For a prefix-returning child filter `F`, iterating
`Not(F)` over `s` yields exactly `s` minus the *first* result of `F` on
`s` (one complementary slice, consumed in a single step); the claimed
equality with `s \ iterate(F, s)` holds only when that first result
already exhausts `iterate(F, s)`, and fails otherwise (see the
counterexample). -/
theorem c5_not_filter_complement {σ : Type} (F : PFilter σ) (st : σ) (s : Slice)
    (hpre : PrefixResult F) (hs : s.start ≤ s.stop) :
    (runIter (pNot F) s st).2 = false ∧
    (∀ slot, inYields (runIter (pNot F) s st).1 slot ↔
      (s.contains slot ∧ ¬ (F.filter st s).1.contains slot)) := by
  obtain ⟨ha1, ha2, ha3⟩ := hpre st s hs
  have hd : s.difference (F.filter st s).1 =
      some ⟨(F.filter st s).1.stop, s.stop⟩ := by
    rw [Slice.difference, if_pos ⟨ha1, ha3⟩]
  have hcall : (pNot F).filter st s =
      (⟨(F.filter st s).1.stop, s.stop⟩, (F.filter st s).2) := by
    cases hf : F.filter st s with
    | mk a st' =>
      rw [hf] at hd
      simp only [pNot, hf, hd, Option.getD_some]
  by_cases hempty : s.stop ≤ (F.filter st s).1.stop
  · have hie : (Slice.mk (F.filter st s).1.stop s.stop).isEmpty = true := by
      simp only [Slice.isEmpty, decide_eq_true_eq]
      exact hempty
    rw [runIter]
    rw [show s.len + 1 = s.len + 1 from rfl]
    rw [runIterF, hcall]
    rw [if_pos hie]
    refine ⟨rfl, ?_⟩
    intro slot
    constructor
    · intro h
      obtain ⟨y, hy, _⟩ := h
      cases hy
    · rintro ⟨⟨h1, h2⟩, hno⟩
      exfalso
      apply hno
      constructor <;> omega
  · have hlt : (F.filter st s).1.stop < s.stop := by omega
    have hie : (Slice.mk (F.filter st s).1.stop s.stop).isEmpty = false := by
      simp only [Slice.isEmpty, decide_eq_false_iff_not, not_le]
      exact hlt
    have hsub : s.start ≤ (Slice.mk (F.filter st s).1.stop s.stop).start ∧
        (Slice.mk (F.filter st s).1.stop s.stop).stop ≤ s.stop := ⟨ha2, le_refl _⟩
    cases hlen : s.len with
    | zero =>
      exfalso
      simp only [Slice.len] at hlen
      omega
    | succ n =>
      have hrw : runIter (pNot F) s st =
          runIterF (pNot F) (n + 1 + 1) s st := by
        rw [runIter, hlen]
      rw [hrw, runIterF, hcall, if_neg (by rw [hie]; intro h; cases h), if_pos hsub]
      -- the second call: the child's prefix of the empty remainder is empty
      obtain ⟨hb1, hb2, hb3⟩ := hpre (F.filter st s).2 ⟨s.stop, s.stop⟩ (le_refl _)
      have hb1' : (F.filter (F.filter st s).2 ⟨s.stop, s.stop⟩).1.start = s.stop := hb1
      have hb2' : s.stop ≤ (F.filter (F.filter st s).2 ⟨s.stop, s.stop⟩).1.stop := hb2
      have hb3' : (F.filter (F.filter st s).2 ⟨s.stop, s.stop⟩).1.stop ≤ s.stop := hb3
      have hd2 : (Slice.mk s.stop s.stop).difference
          ((F.filter (F.filter st s).2 ⟨s.stop, s.stop⟩).1) =
          some ⟨(F.filter (F.filter st s).2 ⟨s.stop, s.stop⟩).1.stop, s.stop⟩ := by
        rw [Slice.difference, if_pos ⟨hb1, hb3⟩]
      have hcall2 : (pNot F).filter (F.filter st s).2 ⟨s.stop, s.stop⟩ =
          (⟨(F.filter (F.filter st s).2 ⟨s.stop, s.stop⟩).1.stop, s.stop⟩,
           (F.filter (F.filter st s).2 ⟨s.stop, s.stop⟩).2) := by
        cases hf : F.filter (F.filter st s).2 ⟨s.stop, s.stop⟩ with
        | mk a st' =>
          rw [hf] at hd2
          simp only [pNot, hf, hd2, Option.getD_some]
      have hie2 : (Slice.mk
          (F.filter (F.filter st s).2 ⟨s.stop, s.stop⟩).1.stop s.stop).isEmpty
          = true := by
        simp only [Slice.isEmpty, decide_eq_true_eq]
        omega
      rw [runIterF, hcall2, if_pos hie2]
      refine ⟨rfl, ?_⟩
      intro slot
      constructor
      · intro h
        obtain ⟨y, hy, hyc⟩ := h
        cases hy with
        | head =>
          obtain ⟨h1, h2⟩ := hyc
          have h1' : (F.filter st s).1.stop ≤ slot := h1
          have h2' : slot < s.stop := h2
          refine ⟨⟨by omega, by omega⟩, ?_⟩
          intro hcon
          obtain ⟨c1, c2⟩ := hcon
          omega
        | tail _ hy' => cases hy'
      · rintro ⟨⟨h1, h2⟩, hno⟩
        refine ⟨⟨(F.filter st s).1.stop, s.stop⟩, List.mem_cons_self _ _, ?_, h2⟩
        show (F.filter st s).1.stop ≤ slot
        by_contra hlt2
        push_neg at hlt2
        apply hno
        constructor <;> omega

/-- C5 counterexample — a stateful prefix-returning filter: iterated alone
it yields `[0,2)` then `[2,5)` (so `s \ iterate(F, s) = [5,10)`), but
`Not(F)` consumes the whole complement of the *first* prefix in one step,
yielding `[2,10)`. At slot 3 the claimed set-difference equality fails. -/
def prefixCounter : PFilter Nat where
  filter := fun n s =>
    (match n with
     | 0 => ⟨s.start, min (s.start + 2) s.stop⟩
     | 1 => ⟨s.start, min (s.start + 3) s.stop⟩
     | _ => ⟨s.start, s.start⟩, n + 1)

theorem c5_counterexample :
    PrefixResult prefixCounter ∧
    (runIter prefixCounter ⟨0, 10⟩ 0).1 = [⟨0, 2⟩, ⟨2, 5⟩] ∧
    (runIter (pNot prefixCounter) ⟨0, 10⟩ 0).1 = [⟨2, 10⟩] ∧
    inYields [(⟨2, 10⟩ : Slice)] 3 ∧
    inYields [(⟨0, 2⟩ : Slice), ⟨2, 5⟩] 3 := by
  refine ⟨?_, by decide, by decide, by decide, by decide⟩
  intro n s hs
  rcases n with _ | (_ | n) <;>
    refine ⟨?_, ?_, ?_⟩ <;>
    simp only [prefixCounter] <;>
    omega

/-- Witness for C5 (amended): `Not(All)` over `[1, 6)` yields nothing and
panic-free — every slot of the input is excluded because the always-true
child's first result covers the whole input. -/
theorem c5_witness :
    (runIter (pNot (booleanFilter true)) ⟨1, 6⟩ ()).2 = false ∧
    ¬ inYields (runIter (pNot (booleanFilter true)) ⟨1, 6⟩ ()).1 3 := by
  have hpre : PrefixResult (booleanFilter true) := by
    intro st s hsle
    exact ⟨rfl, hsle, le_refl _⟩
  have h := c5_not_filter_complement (booleanFilter true) () ⟨1, 6⟩ hpre (by decide)
  refine ⟨h.1, ?_⟩
  intro hy
  have := (h.2 3).mp hy
  exact this.2 (by decide)

end Flax
